import Mathlib

/-!
Peer address book (`addr_manager.go`): shallow embedding and verified properties.

The development models the in-memory `AddrManager` of the peerstore.

* `time.Time` is an integer instant (nanoseconds), `time.Duration` an integer number of
  nanoseconds; `Time.Add` is integer addition and `Time.After` is `>`.  The only arithmetic the
  source performs is `time.Now().Add(ttl)`, which cannot wrap (a `time.Time` keeps 64-bit
  seconds, a `Duration` is at most about 292 years).
* `time.Now()` is an explicit argument `now` of every operation that samples the clock.
* A Go `map` is an association list (`GoMap`).  Lookup, assignment and `delete` are the
  deterministic map operations; the order in which `range` visits a map is unspecified in Go
  and is supplied by a `RangeOrder`, an arbitrary permutation of the values.
* A `ma.Multiaddr` is identified with its byte encoding (`Bytes()`); a `nil` interface value
  is `none`.
* Calls of `subManager.BroadcastAddr(p, addr)` are recorded, in call order, in the list of
  addresses returned next to the new manager state.
* A subscription (`*addrSub`) is a numeric handle.  The goroutine of a subscription is its
  local state together with the values sent on `out`; one step is one ready case of its
  `select` (a send to the consumer or a receive of a publication).
* The ordering used by `sort.Sort(addr.AddrList(initial))` belongs to another package and is
  a parameter (`AddrListSort`).
-/

namespace Peerstore

/-! ## Go maps -/

/-- A Go `map[κ]ν`, kept as an association list; a key is bound to the value of its first
occurrence. -/
abbrev GoMap (κ ν : Type) := List (κ × ν)

namespace GoMap

variable {κ ν : Type} [DecidableEq κ]

/-- The result of `make(map[κ]ν)`. -/
def empty : GoMap κ ν := []

/-- The lookup `v, found := m[k]`. -/
def get? : GoMap κ ν → κ → Option ν
  | [], _ => none
  | (k', v) :: m, k => if k' = k then some v else get? m k

/-- The assignment `m[k] = v`: an existing binding is overwritten, a new one is added. -/
def set : GoMap κ ν → κ → ν → GoMap κ ν
  | [], k, v => [(k, v)]
  | (k', v') :: m, k, v => if k' = k then (k, v) :: m else (k', v') :: set m k v

/-- The statement `delete(m, k)`. -/
def delete (m : GoMap κ ν) (k : κ) : GoMap κ ν :=
  m.filter (fun kv => decide (kv.1 ≠ k))

/-- The keys bound in the map. -/
def keys (m : GoMap κ ν) : List κ := m.map Prod.fst

/-- The values bound in the map. -/
def values (m : GoMap κ ν) : List ν := m.map Prod.snd

/-- The keys of the association list are pairwise distinct, as in every Go map. -/
def NodupKeys (m : GoMap κ ν) : Prop := (m.map Prod.fst).Nodup

end GoMap

/-! ## Data model -/

/-- The type `peer.ID`: an opaque comparable identity. -/
abbrev PeerID := Nat

/-- The type `ma.Multiaddr` (non-nil): determined by its byte encoding. -/
structure Multiaddr where
  /-- The result of `Bytes()`. -/
  Bytes : List Nat
  deriving DecidableEq, Repr

/-- The type `time.Time`, an instant in nanoseconds. -/
abbrev Time := Int

/-- The type `time.Duration`, a signed number of nanoseconds. -/
abbrev Duration := Int

/-- The constant `PermanentAddrTTL = math.MaxInt64 - iota` with `iota = 0`. -/
def PermanentAddrTTL : Duration := 2 ^ 63 - 1 - 0

/-- The constant `ConnectedAddrTTL = math.MaxInt64 - iota` with `iota = 1`. -/
def ConnectedAddrTTL : Duration := 2 ^ 63 - 1 - 1

/-- The struct `expiringAddr`. -/
structure expiringAddr where
  Addr : Multiaddr
  TTL : Duration
  Expires : Time
  deriving DecidableEq, Repr

/-- The method `expiringAddr.ExpiredBy`: `t.After(e.Expires)`. -/
def expiringAddr.ExpiredBy (e : expiringAddr) (t : Time) : Bool :=
  decide (t > e.Expires)

/-- The type `addrSlice`. -/
abbrev addrSlice := List expiringAddr

/-- The struct `AddrSubManager`: subscriptions (handles of `*addrSub`) by peer. -/
structure AddrSubManager where
  subs : GoMap PeerID (List Nat)
  deriving DecidableEq, Repr

/-- The function `NewAddrSubManager`. -/
def NewAddrSubManager : AddrSubManager := { subs := GoMap.empty }

/-- The struct `AddrManager`; `none` is a nil map, respectively a nil pointer. -/
structure AddrManager where
  addrs : Option (GoMap PeerID addrSlice)
  subManager : Option AddrSubManager
  deriving DecidableEq, Repr

/-- The zero value `&AddrManager{}`. -/
def AddrManager.zero : AddrManager := { addrs := none, subManager := none }

/-- The method `init`. -/
def AddrManager.init (mgr : AddrManager) : AddrManager :=
  { addrs := match mgr.addrs with
      | none => some GoMap.empty
      | some m => some m
    subManager := match mgr.subManager with
      | none => some NewAddrSubManager
      | some s => some s }

/-- The map `mgr.addrs` as read by an index expression: a nil map reads as an empty one. -/
def AddrManager.addrsMap (mgr : AddrManager) : GoMap PeerID addrSlice :=
  match mgr.addrs with
  | none => GoMap.empty
  | some m => m

/-- The index expression `mgr.addrs[p]`: the nil slice when `p` has no entry. -/
def AddrManager.entry (mgr : AddrManager) (p : PeerID) : addrSlice :=
  match mgr.addrsMap.get? p with
  | none => []
  | some s => s

/-- An order in which `range` may visit the values of a map: any rearrangement. -/
structure RangeOrder where
  run : List expiringAddr → List expiringAddr
  perm : ∀ l, (run l).Perm l

/-- The order of insertion. -/
def RangeOrder.insertion : RangeOrder := { run := fun l => l, perm := fun l => List.Perm.refl l }

/-- The reverse of the order of insertion. -/
def RangeOrder.reversed : RangeOrder :=
  { run := fun l => l.reverse, perm := fun l => List.reverse_perm l }

/-- The method `Peers` (the order of the result is unspecified in Go). -/
def Peers (mgr : AddrManager) : List PeerID :=
  match mgr.addrs with
  | none => []
  | some m => m.keys

/-- The first loop of `AddAddrs` and `SetAddrs`: `amap[string(ea.Addr.Bytes())] = ea` for
every `ea` of `oldAddrs`. -/
def amapOf (oldAddrs : addrSlice) : GoMap (List Nat) expiringAddr :=
  oldAddrs.foldl (fun amap ea => amap.set ea.Addr.Bytes ea) GoMap.empty

/-- One iteration of the loop over `addrs` in `AddAddrs`; the state is `amap` and the
addresses broadcast so far. -/
def addAddrsStep (ttl : Duration) (exp : Time)
    (st : GoMap (List Nat) expiringAddr × List Multiaddr) (addr : Option Multiaddr) :
    GoMap (List Nat) expiringAddr × List Multiaddr :=
  match addr with
  | none => st
  | some addr =>
    match st.1.get? addr.Bytes with
    | none => (st.1.set addr.Bytes { Addr := addr, Expires := exp, TTL := ttl }, st.2 ++ [addr])
    | some a =>
      if exp > a.Expires then
        (st.1.set addr.Bytes { Addr := addr, Expires := exp, TTL := ttl }, st.2 ++ [addr])
      else st

/-- The method `AddAddrs`, run at instant `now`; returns the new manager and the addresses
passed to `BroadcastAddr`, in order. -/
def AddAddrs (ro : RangeOrder) (mgr : AddrManager) (p : PeerID) (addrs : List (Option Multiaddr))
    (ttl : Duration) (now : Time) : AddrManager × List Multiaddr :=
  if ttl ≤ 0 then (mgr, [])
  else
    let mgr := mgr.init
    let oldAddrs := mgr.entry p
    let amap := amapOf oldAddrs
    let exp := now + ttl
    let st := addrs.foldl (addAddrsStep ttl exp) (amap, [])
    let newAddrs := ro.run (GoMap.values st.1)
    ({ mgr with addrs := some (mgr.addrsMap.set p newAddrs) }, st.2)

/-- The method `AddAddr`. -/
def AddAddr (ro : RangeOrder) (mgr : AddrManager) (p : PeerID) (addr : Option Multiaddr)
    (ttl : Duration) (now : Time) : AddrManager × List Multiaddr :=
  AddAddrs ro mgr p [addr] ttl now

/-- One iteration of the loop over `addrs` in `SetAddrs`. -/
def setAddrsStep (ttl : Duration) (exp : Time)
    (st : GoMap (List Nat) expiringAddr × List Multiaddr) (addr : Option Multiaddr) :
    GoMap (List Nat) expiringAddr × List Multiaddr :=
  match addr with
  | none => st
  | some addr =>
    if ttl > 0 then
      (st.1.set addr.Bytes { Addr := addr, Expires := exp, TTL := ttl }, st.2 ++ [addr])
    else (st.1.delete addr.Bytes, st.2)

/-- The method `SetAddrs`, run at instant `now`. -/
def SetAddrs (ro : RangeOrder) (mgr : AddrManager) (p : PeerID) (addrs : List (Option Multiaddr))
    (ttl : Duration) (now : Time) : AddrManager × List Multiaddr :=
  let mgr := mgr.init
  let oldAddrs := mgr.entry p
  let amap := amapOf oldAddrs
  let exp := now + ttl
  let st := addrs.foldl (setAddrsStep ttl exp) (amap, [])
  let newAddrs := ro.run (GoMap.values st.1)
  ({ mgr with addrs := some (mgr.addrsMap.set p newAddrs) }, st.2)

/-- The method `SetAddr`. -/
def SetAddr (ro : RangeOrder) (mgr : AddrManager) (p : PeerID) (addr : Option Multiaddr)
    (ttl : Duration) (now : Time) : AddrManager × List Multiaddr :=
  SetAddrs ro mgr p [addr] ttl now

/-- The method `UpdateAddrs`, run at instant `now`: the records of `p` are rewritten in
place. -/
def UpdateAddrs (mgr : AddrManager) (p : PeerID) (oldTTL newTTL : Duration) (now : Time) :
    AddrManager :=
  match mgr.addrs with
  | none => mgr
  | some m =>
    match m.get? p with
    | none => mgr
    | some addrs =>
      let exp := now + newTTL
      let addrs := addrs.map (fun aexp =>
        if oldTTL = aexp.TTL then { aexp with TTL := newTTL, Expires := exp } else aexp)
      { mgr with addrs := some (m.set p addrs) }

/-- The method `Addrs`, run at instant `now`; returns the new manager and the result. -/
def Addrs (mgr : AddrManager) (p : PeerID) (now : Time) : AddrManager × List Multiaddr :=
  match mgr.addrs with
  | none => (mgr, [])
  | some m =>
    match m.get? p with
    | none => (mgr, [])
    | some maddrs =>
      let cleaned := maddrs.filter (fun m => !m.ExpiredBy now)
      let good := cleaned.map (fun m => m.Addr)
      if cleaned.length = 0 then ({ mgr with addrs := some (m.delete p) }, good)
      else ({ mgr with addrs := some (m.set p cleaned) }, good)

/-- The method `ClearAddrs`. -/
def ClearAddrs (mgr : AddrManager) (p : PeerID) : AddrManager :=
  let mgr := mgr.init
  { mgr with addrs := some (mgr.addrsMap.delete p) }

/-! ## Predicates used in the statements -/

/-- No two records of the slice have the same address bytes. -/
def Uniq (s : addrSlice) : Prop := (s.map (fun r => r.Addr.Bytes)).Nodup

instance (s : addrSlice) : Decidable (Uniq s) := by unfold Uniq; infer_instance

/-- The record that the first loop of `AddAddrs` and `SetAddrs` leaves in `amap` under the
key `k`: the last record of the slice whose address bytes are `k`. -/
def lastRecord : addrSlice → List Nat → Option expiringAddr
  | [], _ => none
  | r :: s, k =>
    match lastRecord s k with
    | some e => some e
    | none => if r.Addr.Bytes = k then some r else none

/-- Every binding of `amap` is filed under the bytes of its own address, and keys are
distinct. -/
def AmapWF (m : GoMap (List Nat) expiringAddr) : Prop :=
  GoMap.NodupKeys m ∧ ∀ kv ∈ m, kv.2.Addr.Bytes = kv.1

/-- The binding that one iteration of the loop of `AddAddrs` for the address `a` leaves under
the key of `a`, given the binding `cur` found there. -/
def addMerge (ttl : Duration) (exp : Time) (a : Multiaddr) (cur : Option expiringAddr) :
    Option expiringAddr :=
  match cur with
  | none => some { Addr := a, Expires := exp, TTL := ttl }
  | some r => if exp > r.Expires then some { Addr := a, Expires := exp, TTL := ttl } else some r

/-- Whether one iteration of the loop of `AddAddrs` writes (and broadcasts), given the binding
found under the key of the address: the condition `!found || exp.After(a.Expires)`. -/
def addFires (exp : Time) (cur : Option expiringAddr) : Bool :=
  match cur with
  | none => true
  | some r => decide (exp > r.Expires)

/-- The binding that one iteration of the loop of `SetAddrs` for the address `a` leaves under
the key of `a`. -/
def setMerge (ttl : Duration) (exp : Time) (a : Multiaddr) : Option expiringAddr :=
  if ttl > 0 then some { Addr := a, Expires := exp, TTL := ttl } else none

/-- The effect of the whole loop of `AddAddrs` on the binding under the key `k`. -/
def addKey (addrs : List (Option Multiaddr)) (ttl : Duration) (exp : Time) (k : List Nat)
    (cur : Option expiringAddr) : Option expiringAddr :=
  if some (Multiaddr.mk k) ∈ addrs then addMerge ttl exp (Multiaddr.mk k) cur else cur

/-- The effect of the whole loop of `SetAddrs` on the binding under the key `k`. -/
def setKey (addrs : List (Option Multiaddr)) (ttl : Duration) (exp : Time) (k : List Nat)
    (cur : Option expiringAddr) : Option expiringAddr :=
  if some (Multiaddr.mk k) ∈ addrs then setMerge ttl exp (Multiaddr.mk k) else cur

/-- The rewriting that `UpdateAddrs` applies to one record. -/
def updateRecord (oldTTL newTTL : Duration) (now : Time) (aexp : expiringAddr) : expiringAddr :=
  if oldTTL = aexp.TTL then { aexp with TTL := newTTL, Expires := now + newTTL } else aexp

/-- The manager states that a sequence of `AddAddrs`, `SetAddrs`, `UpdateAddrs`, `Addrs` and
`ClearAddrs` calls, with any arguments, at any instants and under any map iteration order,
produces from the zero-value manager. -/
inductive Reachable : AddrManager → Prop
  | zero : Reachable AddrManager.zero
  | addAddrs (ro : RangeOrder) (mgr : AddrManager) (p : PeerID)
      (addrs : List (Option Multiaddr)) (ttl : Duration) (now : Time) :
      Reachable mgr → Reachable (AddAddrs ro mgr p addrs ttl now).1
  | setAddrs (ro : RangeOrder) (mgr : AddrManager) (p : PeerID)
      (addrs : List (Option Multiaddr)) (ttl : Duration) (now : Time) :
      Reachable mgr → Reachable (SetAddrs ro mgr p addrs ttl now).1
  | updateAddrs (mgr : AddrManager) (p : PeerID) (oldTTL newTTL : Duration) (now : Time) :
      Reachable mgr → Reachable (UpdateAddrs mgr p oldTTL newTTL now)
  | addrs (mgr : AddrManager) (p : PeerID) (now : Time) :
      Reachable mgr → Reachable (Addrs mgr p now).1
  | clearAddrs (mgr : AddrManager) (p : PeerID) :
      Reachable mgr → Reachable (ClearAddrs mgr p)

/-- Every slice bound in the store has pairwise distinct address bytes. -/
def StoreUniq (mgr : AddrManager) : Prop := ∀ kv ∈ mgr.addrsMap, Uniq kv.2

/-! ## Subscriptions -/

/-- The call `sort.Sort(addr.AddrList(initial))`.  The ordering of `addr.AddrList` is declared
in package `addr`, outside the files modelled here, so the sort is a parameter: it rearranges
its argument. -/
structure AddrListSort where
  run : List Multiaddr → List Multiaddr
  perm : ∀ l, (run l).Perm l

/-- Modelled from the spec: the ordering of `addr.AddrList` is not in the files modelled here;
this instance sorts by bytes, lexicographically (the tie-break order the specification
names). -/
def AddrListSort.byBytes : AddrListSort :=
  { run := fun l => l.insertionSort (fun a b => a.Bytes ≤ b.Bytes)
    perm := fun l => List.perm_insertionSort _ l }

/-- The local state of the goroutine started by `AddrSubManager.AddrStream`, with the values
sent on the channel `out` so far. -/
structure addrSubState where
  buffer : List Multiaddr
  sent : GoMap (List Nat) Bool
  next : Option Multiaddr
  /-- Whether `outch` is `out` (otherwise it is nil). -/
  outch : Bool
  /-- The values sent on `out`, oldest first. -/
  out : List (Option Multiaddr)
  deriving DecidableEq, Repr

/-- The goroutine of `AddrSubManager.AddrStream` up to the start of its loop. -/
def subStart (buffer : List Multiaddr) : addrSubState :=
  let sent := buffer.foldl (fun (sent : GoMap (List Nat) Bool) a => sent.set a.Bytes true)
    GoMap.empty
  match buffer with
  | [] => { buffer := [], sent := sent, next := none, outch := false, out := [] }
  | a :: rest => { buffer := rest, sent := sent, next := some a, outch := true, out := [] }

/-- The cases of the `select` in the loop of the goroutine, cancellation apart. -/
inductive SubEvent where
  /-- The case `outch <- next`: the consumer receives. -/
  | send
  /-- The case `naddr := <-sub.pubch`. -/
  | pub (naddr : Multiaddr)
  deriving DecidableEq, Repr

/-- The lookup `sent[k]`, which is `false` for a missing key. -/
def sentAt (sent : GoMap (List Nat) Bool) (k : List Nat) : Bool :=
  match sent.get? k with
  | none => false
  | some b => b

/-- One iteration of the loop of the goroutine; `none` when the case is not ready (a send
on a nil `outch`). -/
def subStep (s : addrSubState) : SubEvent → Option addrSubState
  | SubEvent.send =>
    if s.outch then
      match s.buffer with
      | a :: rest => some { s with next := some a, buffer := rest, out := s.out ++ [s.next] }
      | [] => some { s with outch := false, next := none, out := s.out ++ [s.next] }
    else none
  | SubEvent.pub naddr =>
    if sentAt s.sent naddr.Bytes then some s
    else
      match s.next with
      | none =>
        some { s with sent := s.sent.set naddr.Bytes true, next := some naddr, outch := true }
      | some _ =>
        some { s with sent := s.sent.set naddr.Bytes true, buffer := s.buffer ++ [naddr] }

/-- The loop of the goroutine along a sequence of selected cases. -/
def subRun (s : addrSubState) : List SubEvent → Option addrSubState
  | [] => some s
  | e :: es =>
    match subStep s e with
    | none => none
    | some s' => subRun s' es

/-- The addresses published along a sequence of selected cases, in order. -/
def pubsOf : List SubEvent → List Multiaddr
  | [] => []
  | SubEvent.send :: es => pubsOf es
  | SubEvent.pub a :: es => a :: pubsOf es

/-- The publications to deliver after a snapshot, in the words of the specification: those
whose bytes are neither in the snapshot nor published earlier, in publication order. -/
def freshPubs (seen : List Multiaddr) : List Multiaddr → List Multiaddr
  | [] => []
  | a :: pubs => if a ∈ seen then freshPubs seen pubs else a :: freshPubs (a :: seen) pubs

/-- The slice `mgr.subs[p]`: nil when `p` has no subscriber list. -/
def AddrSubManager.subsOf (mgr : AddrSubManager) (p : PeerID) : List Nat :=
  match mgr.subs.get? p with
  | none => []
  | some subs => subs

/-- The method `removeSub`. -/
def AddrSubManager.removeSub (mgr : AddrSubManager) (p : PeerID) (s : Nat) : AddrSubManager :=
  let subs := mgr.subsOf p
  if subs.length = 1 then
    if subs.head? ≠ some s then mgr
    else { subs := mgr.subs.delete p }
  else
    let i := subs.indexOf s
    if i < subs.length then
      { subs := mgr.subs.set p ((subs.set i (subs.getLastD s)).take (subs.length - 1)) }
    else mgr

/-- The registration block of `AddrSubManager.AddrStream` for the new subscription `sub`. -/
def AddrSubManager.register (mgr : AddrSubManager) (p : PeerID) (sub : Nat) : AddrSubManager :=
  match mgr.subs.get? p with
  | some subs => { subs := mgr.subs.set p (subs ++ [sub]) }
  | none => { subs := mgr.subs.set p [sub] }

/-- The method `AddrSubManager.AddrStream`; `sub` is the handle of the new `addrSub`.  Returns
the manager and the state of the new goroutine at the start of its loop. -/
def AddrSubManager.AddrStream (srt : AddrListSort) (mgr : AddrSubManager) (p : PeerID)
    (initial : List Multiaddr) (sub : Nat) : AddrSubManager × addrSubState :=
  (mgr.register p sub, subStart (srt.run initial))

/-- The sub manager of an initialised manager. -/
def AddrManager.subMgr (mgr : AddrManager) : AddrSubManager :=
  match mgr.subManager with
  | none => NewAddrSubManager
  | some sm => sm

/-- The method `AddrManager.AddrStream`. -/
def AddrStream (srt : AddrListSort) (mgr : AddrManager) (p : PeerID) (sub : Nat) :
    AddrManager × addrSubState :=
  let mgr := mgr.init
  let baseaddrslice := mgr.entry p
  let initial := baseaddrslice.map (fun a => a.Addr)
  let r := mgr.subMgr.AddrStream srt p initial sub
  ({ mgr with subManager := some r.1 }, r.2)

/-- The list that a new subscription holds for delivery: `next` followed by `buffer`. -/
def addrSubState.pending (s : addrSubState) : List Multiaddr :=
  (match s.next with
    | none => []
    | some a => [a]) ++ s.buffer

/-- No key of the subscriber index is bound to an empty list. -/
def NoEmptySubs (mgr : AddrSubManager) : Prop := ∀ kv ∈ mgr.subs, kv.2 ≠ []

/-- No subscription occurs twice in a list of the subscriber index. -/
def NodupSubs (mgr : AddrSubManager) : Prop := ∀ kv ∈ mgr.subs, kv.2.Nodup

/-- The state of a subscription goroutine is consistent with the list `seen` of the
addresses of the snapshot and of the publications received so far: `outch` is `out` exactly
when `next` is set, the buffer is empty when `next` is not set, and `sent` marks exactly the
bytes of `seen`. -/
def SubWF (s : addrSubState) (seen : List Multiaddr) : Prop :=
  s.outch = s.next.isSome
    ∧ (s.next = none → s.buffer = [])
    ∧ ∀ a : Multiaddr, sentAt s.sent a.Bytes = true ↔ a ∈ seen

/-- The slice that the loop of `removeSub` stores for `p` when it finds `s` at index
`subs.indexOf s`: the last element is moved into that slot and the slice is shortened by
one. -/
def swapRemove (subs : List Nat) (s : Nat) : List Nat :=
  (subs.set (subs.indexOf s) (subs.getLastD s)).take (subs.length - 1)

/-- The condition under which one iteration of `AddAddrs` for the address `a` broadcasts, in
terms of the records of `p` before the call: no record for `a`, or one expiring before
`exp`. -/
def isNewFor (old : addrSlice) (exp : Time) (a : Multiaddr) : Prop :=
  (∀ r ∈ old, r.Addr ≠ a) ∨ ∃ r ∈ old, r.Addr = a ∧ r.Expires < exp

/-! ## Facts about Go maps -/

namespace GoMap

variable {κ ν : Type} [DecidableEq κ]

theorem get?_empty (k : κ) : (GoMap.empty : GoMap κ ν).get? k = none := rfl

theorem get?_set (m : GoMap κ ν) (k : κ) (v : ν) (k' : κ) :
    (m.set k v).get? k' = if k = k' then some v else m.get? k' := by
  induction m with
  | nil => simp [set, get?]
  | cons kv m ih =>
    obtain ⟨k0, v0⟩ := kv
    by_cases h : k0 = k
    · subst h
      by_cases h' : k0 = k' <;> simp [set, get?, h']
    · by_cases h' : k0 = k'
      · subst h'
        simp [set, get?, h, Ne.symm h]
      · simp [set, get?, h, h', ih]

theorem get?_delete (m : GoMap κ ν) (k k' : κ) :
    (m.delete k).get? k' = if k = k' then none else m.get? k' := by
  induction m with
  | nil => simp [delete, get?]
  | cons kv m ih =>
    obtain ⟨k0, v0⟩ := kv
    have hcons : delete ((k0, v0) :: m) k
        = if k0 = k then delete m k else (k0, v0) :: delete m k := by
      by_cases h : k0 = k <;> simp [delete, List.filter_cons, h]
    rw [hcons]
    by_cases h : k0 = k
    · subst h
      by_cases h' : k0 = k'
      · subst h'
        simp [ih]
      · simp [get?, h', ih]
    · by_cases h' : k0 = k'
      · subst h'
        simp [get?, h, Ne.symm h]
      · simp [get?, h, h', ih]

theorem mem_set {m : GoMap κ ν} {k : κ} {v : ν} {x : κ × ν} (hx : x ∈ m.set k v) :
    x = (k, v) ∨ x ∈ m := by
  induction m with
  | nil => simpa [set] using hx
  | cons kv m ih =>
    obtain ⟨k0, v0⟩ := kv
    by_cases h : k0 = k
    · simp only [set, h, if_true, List.mem_cons] at hx
      rcases hx with hx | hx
      · exact Or.inl hx
      · exact Or.inr (List.mem_cons_of_mem _ hx)
    · simp only [set, h, if_false, List.mem_cons] at hx
      rcases hx with hx | hx
      · exact Or.inr (hx ▸ List.mem_cons_self _ _)
      · rcases ih hx with h1 | h1
        · exact Or.inl h1
        · exact Or.inr (List.mem_cons_of_mem _ h1)

theorem mem_delete {m : GoMap κ ν} {k : κ} {x : κ × ν} (hx : x ∈ m.delete k) : x ∈ m :=
  (List.mem_filter.1 hx).1

theorem keys_set_subset {m : GoMap κ ν} {k : κ} {v : ν} {k' : κ}
    (h : k' ∈ (m.set k v).map Prod.fst) : k' = k ∨ k' ∈ m.map Prod.fst := by
  obtain ⟨x, hx, rfl⟩ := List.mem_map.1 h
  rcases mem_set hx with h1 | h1
  · exact Or.inl (by rw [h1])
  · exact Or.inr (List.mem_map_of_mem _ h1)

theorem nodupKeys_set {m : GoMap κ ν} (h : NodupKeys m) (k : κ) (v : ν) :
    NodupKeys (m.set k v) := by
  induction m with
  | nil => simp [set, NodupKeys]
  | cons kv m ih =>
    obtain ⟨k0, v0⟩ := kv
    unfold NodupKeys at h ih ⊢
    simp only [List.map_cons, List.nodup_cons] at h
    by_cases hk : k0 = k
    · subst hk
      simpa [set] using h
    · simp only [set, hk, if_false, List.map_cons, List.nodup_cons]
      refine ⟨fun hmem => ?_, ih h.2⟩
      rcases keys_set_subset hmem with h1 | h1
      · exact hk h1
      · exact h.1 h1

theorem nodupKeys_delete {m : GoMap κ ν} (h : NodupKeys m) (k : κ) :
    NodupKeys (m.delete k) := by
  unfold NodupKeys delete at *
  exact (List.filter_sublist m).map Prod.fst |>.nodup h

theorem get?_eq_some_of_mem {m : GoMap κ ν} (h : NodupKeys m) {k : κ} {v : ν}
    (hm : (k, v) ∈ m) : m.get? k = some v := by
  induction m with
  | nil => cases hm
  | cons kv m ih =>
    obtain ⟨k0, v0⟩ := kv
    unfold NodupKeys at h ih
    simp only [List.map_cons, List.nodup_cons] at h
    rcases List.mem_cons.1 hm with h1 | h1
    · cases h1
      simp [get?]
    · have hne : k0 ≠ k := fun e => h.1 (e ▸ List.mem_map_of_mem Prod.fst h1)
      simp [get?, hne, ih h.2 h1]

theorem mem_of_get?_eq_some {m : GoMap κ ν} {k : κ} {v : ν} (h : m.get? k = some v) :
    (k, v) ∈ m := by
  induction m with
  | nil => simp [get?] at h
  | cons kv m ih =>
    obtain ⟨k0, v0⟩ := kv
    by_cases hk : k0 = k
    · subst hk
      simp [get?] at h
      simp [h]
    · simp [get?, hk] at h
      exact List.mem_cons_of_mem _ (ih h)

end GoMap

/-! ## Facts about the loops of `AddAddrs` and `SetAddrs` -/

theorem Multiaddr.eq_of_bytes {a b : Multiaddr} (h : a.Bytes = b.Bytes) : a = b := by
  cases a; cases b; simp_all

theorem foldl_set_get? (s : addrSlice) (m : GoMap (List Nat) expiringAddr) (k : List Nat) :
    (s.foldl (fun amap ea => amap.set ea.Addr.Bytes ea) m).get? k
      = match lastRecord s k with
        | some e => some e
        | none => m.get? k := by
  induction s generalizing m with
  | nil => simp [lastRecord]
  | cons r s ih =>
    rw [List.foldl_cons, ih, GoMap.get?_set]
    cases h : lastRecord s k with
    | some e => simp [lastRecord, h]
    | none =>
      by_cases hk : r.Addr.Bytes = k <;> simp [lastRecord, h, hk]

theorem amapOf_get? (s : addrSlice) (k : List Nat) : (amapOf s).get? k = lastRecord s k := by
  unfold amapOf
  rw [foldl_set_get?]
  cases lastRecord s k <;> simp [GoMap.get?_empty]

theorem AmapWF.set_wf {m : GoMap (List Nat) expiringAddr} (h : AmapWF m) (e : expiringAddr) :
    AmapWF (m.set e.Addr.Bytes e) := by
  refine ⟨GoMap.nodupKeys_set h.1 _ _, fun kv hkv => ?_⟩
  rcases GoMap.mem_set hkv with h1 | h1
  · rw [h1]
  · exact h.2 kv h1

theorem AmapWF.delete_wf {m : GoMap (List Nat) expiringAddr} (h : AmapWF m) (k : List Nat) :
    AmapWF (m.delete k) :=
  ⟨GoMap.nodupKeys_delete h.1 k, fun kv hkv => h.2 kv (GoMap.mem_delete hkv)⟩

theorem AmapWF.empty_wf : AmapWF (GoMap.empty : GoMap (List Nat) expiringAddr) :=
  ⟨List.nodup_nil, fun _ h => by cases h⟩

theorem foldl_set_wf (s : addrSlice) (m : GoMap (List Nat) expiringAddr) (h : AmapWF m) :
    AmapWF (s.foldl (fun amap ea => amap.set ea.Addr.Bytes ea) m) := by
  induction s generalizing m with
  | nil => exact h
  | cons r s ih => exact ih _ (h.set_wf r)

theorem amapOf_wf (s : addrSlice) : AmapWF (amapOf s) := foldl_set_wf s _ AmapWF.empty_wf

theorem AmapWF.mem_values {m : GoMap (List Nat) expiringAddr} (h : AmapWF m) (e : expiringAddr) :
    e ∈ GoMap.values m ↔ m.get? e.Addr.Bytes = some e := by
  constructor
  · intro he
    obtain ⟨kv, hkv, rfl⟩ := List.mem_map.1 he
    have hk := h.2 kv hkv
    obtain ⟨k, v⟩ := kv
    simp only at hk ⊢
    rw [hk]
    exact GoMap.get?_eq_some_of_mem h.1 hkv
  · intro he
    exact List.mem_map.2 ⟨_, GoMap.mem_of_get?_eq_some he, rfl⟩

theorem AmapWF.uniq_values {m : GoMap (List Nat) expiringAddr} (h : AmapWF m) :
    Uniq (GoMap.values m) := by
  have hmap : (GoMap.values m).map (fun r => r.Addr.Bytes) = m.map Prod.fst := by
    unfold GoMap.values
    rw [List.map_map]
    exact List.map_congr_left (fun kv hkv => h.2 kv hkv)
  unfold Uniq
  rw [hmap]
  exact h.1

theorem RangeOrder.mem_run (ro : RangeOrder) (l : List expiringAddr) (e : expiringAddr) :
    e ∈ ro.run l ↔ e ∈ l := (ro.perm l).mem_iff

theorem RangeOrder.uniq_run (ro : RangeOrder) {l : List expiringAddr} (h : Uniq l) :
    Uniq (ro.run l) := by
  unfold Uniq at *
  exact (((ro.perm l).map _).nodup_iff).2 h

theorem lastRecord_some {s : addrSlice} {k : List Nat} {e : expiringAddr}
    (h : lastRecord s k = some e) : e ∈ s ∧ e.Addr.Bytes = k := by
  induction s with
  | nil => simp [lastRecord] at h
  | cons r s ih =>
    cases h1 : lastRecord s k with
    | some e1 =>
      simp only [lastRecord, h1, Option.some.injEq] at h
      subst h
      exact ⟨List.mem_cons_of_mem _ (ih h1).1, (ih h1).2⟩
    | none =>
      by_cases hk : r.Addr.Bytes = k
      · simp only [lastRecord, h1, hk, if_true, Option.some.injEq] at h
        subst h
        exact ⟨List.mem_cons_self _ _, hk⟩
      · simp [lastRecord, h1, hk] at h

theorem lastRecord_none {s : addrSlice} {k : List Nat} :
    lastRecord s k = none ↔ ∀ r ∈ s, r.Addr.Bytes ≠ k := by
  induction s with
  | nil => simp [lastRecord]
  | cons r s ih =>
    cases h1 : lastRecord s k with
    | some e1 =>
      have := lastRecord_some h1
      simp only [lastRecord, h1, List.mem_cons, false_iff, reduceCtorEq]
      intro hall
      exact hall e1 (Or.inr this.1) this.2
    | none =>
      have h2 := ih.1 h1
      by_cases hk : r.Addr.Bytes = k
      · simp only [lastRecord, h1, hk, if_true, reduceCtorEq, false_iff]
        intro hall
        exact hall r (List.mem_cons_self _ _) hk
      · simp only [lastRecord, h1, hk, if_false, true_iff]
        intro x hx
        rcases List.mem_cons.1 hx with hx | hx
        · rw [hx]; exact hk
        · exact h2 x hx

theorem lastRecord_of_mem {s : addrSlice} (hu : Uniq s) {e : expiringAddr} (he : e ∈ s) :
    lastRecord s e.Addr.Bytes = some e := by
  induction s with
  | nil => cases he
  | cons r s ih =>
    unfold Uniq at hu ih
    simp only [List.map_cons, List.nodup_cons, List.mem_map, not_exists, not_and] at hu
    rcases List.mem_cons.1 he with h1 | h1
    · subst h1
      have hnone : lastRecord s e.Addr.Bytes = none :=
        lastRecord_none.2 (fun x hx => hu.1 x hx)
      simp [lastRecord, hnone]
    · simp [lastRecord, ih hu.2 h1]

theorem lastRecord_iff {s : addrSlice} (hu : Uniq s) (k : List Nat) (e : expiringAddr) :
    lastRecord s k = some e ↔ e ∈ s ∧ e.Addr.Bytes = k :=
  ⟨lastRecord_some, fun h => h.2 ▸ lastRecord_of_mem hu h.1⟩

theorem addAddrsStep_some (ttl : Duration) (exp : Time)
    (st : GoMap (List Nat) expiringAddr × List Multiaddr) (a : Multiaddr) :
    addAddrsStep ttl exp st (some a)
      = if addFires exp (st.1.get? a.Bytes) then
          (st.1.set a.Bytes { Addr := a, Expires := exp, TTL := ttl }, st.2 ++ [a])
        else st := by
  unfold addAddrsStep addFires
  cases h : st.1.get? a.Bytes with
  | none => simp [h]
  | some r => by_cases hr : exp > r.Expires <;> simp [hr, h]

theorem addAddrsStep_get? (ttl : Duration) (exp : Time)
    (st : GoMap (List Nat) expiringAddr × List Multiaddr) (a : Multiaddr) (k : List Nat) :
    (addAddrsStep ttl exp st (some a)).1.get? k
      = if a.Bytes = k then addMerge ttl exp a (st.1.get? k) else st.1.get? k := by
  rw [addAddrsStep_some]
  by_cases hk : a.Bytes = k
  · subst hk
    cases h : st.1.get? a.Bytes with
    | none => simp [addFires, addMerge, GoMap.get?_set]
    | some r =>
      by_cases hr : exp > r.Expires <;> simp [addFires, addMerge, GoMap.get?_set, hr, h]
  · by_cases hf : addFires exp (st.1.get? a.Bytes) <;> simp [hf, hk, GoMap.get?_set]

theorem addMerge_idem (ttl : Duration) (exp : Time) (a : Multiaddr) (cur : Option expiringAddr) :
    addMerge ttl exp a (addMerge ttl exp a cur) = addMerge ttl exp a cur := by
  cases cur with
  | none => simp [addMerge]
  | some r => by_cases hr : exp > r.Expires <;> simp [addMerge, hr]

theorem addAddrsStep_wf (ttl : Duration) (exp : Time)
    (st : GoMap (List Nat) expiringAddr × List Multiaddr) (addr : Option Multiaddr)
    (h : AmapWF st.1) : AmapWF (addAddrsStep ttl exp st addr).1 := by
  cases addr with
  | none => exact h
  | some a =>
    rw [addAddrsStep_some]
    by_cases hf : addFires exp (st.1.get? a.Bytes)
    · simp only [hf, if_true]
      exact h.set_wf { Addr := a, Expires := exp, TTL := ttl }
    · simpa [hf] using h

theorem addLoop_wf (ttl : Duration) (exp : Time) (addrs : List (Option Multiaddr))
    (st : GoMap (List Nat) expiringAddr × List Multiaddr) (h : AmapWF st.1) :
    AmapWF (addrs.foldl (addAddrsStep ttl exp) st).1 := by
  induction addrs generalizing st with
  | nil => exact h
  | cons a addrs ih => exact ih _ (addAddrsStep_wf ttl exp st a h)

theorem addLoop_get? (ttl : Duration) (exp : Time) (addrs : List (Option Multiaddr))
    (st : GoMap (List Nat) expiringAddr × List Multiaddr) (k : List Nat) :
    (addrs.foldl (addAddrsStep ttl exp) st).1.get? k
      = if some (Multiaddr.mk k) ∈ addrs then addMerge ttl exp (Multiaddr.mk k) (st.1.get? k)
        else st.1.get? k := by
  induction addrs generalizing st with
  | nil => simp
  | cons a addrs ih =>
    rw [List.foldl_cons, ih]
    cases a with
    | none => simp [addAddrsStep]
    | some a =>
      rw [addAddrsStep_get?]
      by_cases hk : a.Bytes = k
      · have ha : a = Multiaddr.mk k := Multiaddr.eq_of_bytes hk
        subst ha
        by_cases hmem : some (Multiaddr.mk k) ∈ addrs <;> simp [hmem, addMerge_idem]
      · have hne : ¬ (Multiaddr.mk k = a) := fun e => hk (by rw [← e])
        simp [hk, hne]

theorem addLoop_bcast (ttl : Duration) (exp : Time) (addrs : List (Option Multiaddr))
    (st : GoMap (List Nat) expiringAddr × List Multiaddr) (a : Multiaddr) :
    a ∈ (addrs.foldl (addAddrsStep ttl exp) st).2
      ↔ a ∈ st.2 ∨ (some a ∈ addrs ∧ addFires exp (st.1.get? a.Bytes) = true) := by
  induction addrs generalizing st with
  | nil => simp
  | cons b addrs ih =>
    rw [List.foldl_cons, ih]
    cases b with
    | none => simp [addAddrsStep]
    | some b =>
      by_cases hb : b = a
      · subst hb
        rw [addAddrsStep_get?, addAddrsStep_some]
        cases h : st.1.get? b.Bytes with
        | none => simp [addFires, addMerge]
        | some r =>
          by_cases hr : exp > r.Expires
          · simp [addFires, addMerge, hr]
          · simp [addFires, addMerge, hr, h]
      · have hk : ¬ (b.Bytes = a.Bytes) := fun e => hb (Multiaddr.eq_of_bytes e)
        have hne : ¬ (a = b) := fun e => hb e.symm
        rw [addAddrsStep_get?, addAddrsStep_some]
        by_cases hf : addFires exp (st.1.get? b.Bytes) <;> simp [hf, hk, hne]

theorem setAddrsStep_get? (ttl : Duration) (exp : Time)
    (st : GoMap (List Nat) expiringAddr × List Multiaddr) (a : Multiaddr) (k : List Nat) :
    (setAddrsStep ttl exp st (some a)).1.get? k
      = if a.Bytes = k then setMerge ttl exp a else st.1.get? k := by
  unfold setAddrsStep setMerge
  by_cases ht : ttl > 0
  · by_cases hk : a.Bytes = k <;> simp [ht, hk, GoMap.get?_set]
  · by_cases hk : a.Bytes = k <;> simp [ht, hk, GoMap.get?_delete]

theorem setAddrsStep_wf (ttl : Duration) (exp : Time)
    (st : GoMap (List Nat) expiringAddr × List Multiaddr) (addr : Option Multiaddr)
    (h : AmapWF st.1) : AmapWF (setAddrsStep ttl exp st addr).1 := by
  cases addr with
  | none => exact h
  | some a =>
    unfold setAddrsStep
    by_cases ht : ttl > 0
    · simp only [ht, if_true]
      exact h.set_wf { Addr := a, Expires := exp, TTL := ttl }
    · simp only [ht, if_false]
      exact h.delete_wf _

theorem setLoop_wf (ttl : Duration) (exp : Time) (addrs : List (Option Multiaddr))
    (st : GoMap (List Nat) expiringAddr × List Multiaddr) (h : AmapWF st.1) :
    AmapWF (addrs.foldl (setAddrsStep ttl exp) st).1 := by
  induction addrs generalizing st with
  | nil => exact h
  | cons a addrs ih => exact ih _ (setAddrsStep_wf ttl exp st a h)

theorem setLoop_get? (ttl : Duration) (exp : Time) (addrs : List (Option Multiaddr))
    (st : GoMap (List Nat) expiringAddr × List Multiaddr) (k : List Nat) :
    (addrs.foldl (setAddrsStep ttl exp) st).1.get? k
      = if some (Multiaddr.mk k) ∈ addrs then setMerge ttl exp (Multiaddr.mk k)
        else st.1.get? k := by
  induction addrs generalizing st with
  | nil => simp
  | cons a addrs ih =>
    rw [List.foldl_cons, ih]
    cases a with
    | none => simp [setAddrsStep]
    | some a =>
      rw [setAddrsStep_get?]
      by_cases hk : a.Bytes = k
      · have ha : a = Multiaddr.mk k := Multiaddr.eq_of_bytes hk
        subst ha
        by_cases hmem : some (Multiaddr.mk k) ∈ addrs <;> simp [hmem]
      · have hne : ¬ (Multiaddr.mk k = a) := fun e => hk (by rw [← e])
        simp [hk, hne]

/-! ## Facts about the manager state -/

theorem lastRecord_run_values (ro : RangeOrder) {m : GoMap (List Nat) expiringAddr}
    (h : AmapWF m) (k : List Nat) : lastRecord (ro.run (GoMap.values m)) k = m.get? k := by
  have hu : Uniq (ro.run (GoMap.values m)) := ro.uniq_run h.uniq_values
  cases hg : m.get? k with
  | some e =>
    have hk : e.Addr.Bytes = k := h.2 _ (GoMap.mem_of_get?_eq_some hg)
    have hmem : e ∈ ro.run (GoMap.values m) := by
      rw [ro.mem_run, h.mem_values, hk]
      exact hg
    rw [← hk]
    exact lastRecord_of_mem hu hmem
  | none =>
    rw [lastRecord_none]
    intro r hr hk
    rw [ro.mem_run, h.mem_values, hk, hg] at hr
    cases hr

theorem mem_run_values (ro : RangeOrder) {m : GoMap (List Nat) expiringAddr}
    (h : AmapWF m) (e : expiringAddr) :
    e ∈ ro.run (GoMap.values m) ↔ m.get? e.Addr.Bytes = some e := by
  rw [ro.mem_run, h.mem_values]

theorem init_addrsMap (mgr : AddrManager) : mgr.init.addrsMap = mgr.addrsMap := by
  unfold AddrManager.init AddrManager.addrsMap
  cases mgr.addrs <;> rfl

theorem init_entry (mgr : AddrManager) (p : PeerID) : mgr.init.entry p = mgr.entry p := by
  unfold AddrManager.entry
  rw [init_addrsMap]

theorem entry_set (mgr : AddrManager) (m : GoMap PeerID addrSlice) (p q : PeerID)
    (v : addrSlice) :
    ({ mgr with addrs := some (m.set p v) } : AddrManager).entry q
      = if p = q then v else ({ mgr with addrs := some m } : AddrManager).entry q := by
  unfold AddrManager.entry AddrManager.addrsMap
  simp only [GoMap.get?_set]
  by_cases h : p = q <;> simp [h]

theorem entry_delete (mgr : AddrManager) (m : GoMap PeerID addrSlice) (p q : PeerID) :
    ({ mgr with addrs := some (m.delete p) } : AddrManager).entry q
      = if p = q then [] else ({ mgr with addrs := some m } : AddrManager).entry q := by
  unfold AddrManager.entry AddrManager.addrsMap
  simp only [GoMap.get?_delete]
  by_cases h : p = q <;> simp [h]

theorem entry_some_addrsMap (mgr mgr' : AddrManager) (q : PeerID) :
    ({ mgr' with addrs := some mgr.addrsMap } : AddrManager).entry q = mgr.entry q := rfl

/-- The slice stored for `p` by `AddAddrs` with a positive ttl. -/
theorem AddAddrs_entry_self (ro : RangeOrder) (mgr : AddrManager) (p : PeerID)
    (addrs : List (Option Multiaddr)) (ttl : Duration) (now : Time) (ht : 0 < ttl) :
    (AddAddrs ro mgr p addrs ttl now).1.entry p
      = ro.run (GoMap.values
          (addrs.foldl (addAddrsStep ttl (now + ttl)) (amapOf (mgr.entry p), [])).1) := by
  unfold AddAddrs
  rw [if_neg (not_le.2 ht)]
  simp only [entry_set, if_true, init_entry]

theorem AddAddrs_entry_other (ro : RangeOrder) (mgr : AddrManager) (p q : PeerID)
    (addrs : List (Option Multiaddr)) (ttl : Duration) (now : Time) (hq : p ≠ q) :
    (AddAddrs ro mgr p addrs ttl now).1.entry q = mgr.entry q := by
  unfold AddAddrs
  by_cases ht : ttl ≤ 0
  · rw [if_pos ht]
  · rw [if_neg ht]
    simp only [entry_set, if_neg hq, init_addrsMap, entry_some_addrsMap]

theorem AddAddrs_bcast_eq (ro : RangeOrder) (mgr : AddrManager) (p : PeerID)
    (addrs : List (Option Multiaddr)) (ttl : Duration) (now : Time) (ht : 0 < ttl) :
    (AddAddrs ro mgr p addrs ttl now).2
      = (addrs.foldl (addAddrsStep ttl (now + ttl)) (amapOf (mgr.entry p), [])).2 := by
  unfold AddAddrs
  rw [if_neg (not_le.2 ht)]
  simp only [init_entry]

theorem AddAddrs_lastRecord (ro : RangeOrder) (mgr : AddrManager) (p : PeerID)
    (addrs : List (Option Multiaddr)) (ttl : Duration) (now : Time) (ht : 0 < ttl)
    (k : List Nat) :
    lastRecord ((AddAddrs ro mgr p addrs ttl now).1.entry p) k
      = addKey addrs ttl (now + ttl) k (lastRecord (mgr.entry p) k) := by
  rw [AddAddrs_entry_self ro mgr p addrs ttl now ht,
    lastRecord_run_values ro (addLoop_wf _ _ _ _ (amapOf_wf _)), addLoop_get?, amapOf_get?]
  rfl

theorem AddAddrs_uniq (ro : RangeOrder) (mgr : AddrManager) (p : PeerID)
    (addrs : List (Option Multiaddr)) (ttl : Duration) (now : Time) (ht : 0 < ttl) :
    Uniq ((AddAddrs ro mgr p addrs ttl now).1.entry p) := by
  rw [AddAddrs_entry_self ro mgr p addrs ttl now ht]
  exact ro.uniq_run (addLoop_wf _ _ _ _ (amapOf_wf _)).uniq_values

theorem AddAddrs_mem (ro : RangeOrder) (mgr : AddrManager) (p : PeerID)
    (addrs : List (Option Multiaddr)) (ttl : Duration) (now : Time) (ht : 0 < ttl)
    (e : expiringAddr) :
    e ∈ (AddAddrs ro mgr p addrs ttl now).1.entry p
      ↔ addKey addrs ttl (now + ttl) e.Addr.Bytes (lastRecord (mgr.entry p) e.Addr.Bytes)
          = some e := by
  rw [AddAddrs_entry_self ro mgr p addrs ttl now ht,
    mem_run_values ro (addLoop_wf _ _ _ _ (amapOf_wf _)), addLoop_get?, amapOf_get?]
  rfl

theorem SetAddrs_entry_self (ro : RangeOrder) (mgr : AddrManager) (p : PeerID)
    (addrs : List (Option Multiaddr)) (ttl : Duration) (now : Time) :
    (SetAddrs ro mgr p addrs ttl now).1.entry p
      = ro.run (GoMap.values
          (addrs.foldl (setAddrsStep ttl (now + ttl)) (amapOf (mgr.entry p), [])).1) := by
  unfold SetAddrs
  simp only [entry_set, if_true, init_entry]

theorem SetAddrs_entry_other (ro : RangeOrder) (mgr : AddrManager) (p q : PeerID)
    (addrs : List (Option Multiaddr)) (ttl : Duration) (now : Time) (hq : p ≠ q) :
    (SetAddrs ro mgr p addrs ttl now).1.entry q = mgr.entry q := by
  unfold SetAddrs
  simp only [entry_set, if_neg hq, init_addrsMap, entry_some_addrsMap]

theorem SetAddrs_lastRecord (ro : RangeOrder) (mgr : AddrManager) (p : PeerID)
    (addrs : List (Option Multiaddr)) (ttl : Duration) (now : Time) (k : List Nat) :
    lastRecord ((SetAddrs ro mgr p addrs ttl now).1.entry p) k
      = setKey addrs ttl (now + ttl) k (lastRecord (mgr.entry p) k) := by
  rw [SetAddrs_entry_self ro mgr p addrs ttl now,
    lastRecord_run_values ro (setLoop_wf _ _ _ _ (amapOf_wf _)), setLoop_get?, amapOf_get?]
  rfl

theorem SetAddrs_uniq (ro : RangeOrder) (mgr : AddrManager) (p : PeerID)
    (addrs : List (Option Multiaddr)) (ttl : Duration) (now : Time) :
    Uniq ((SetAddrs ro mgr p addrs ttl now).1.entry p) := by
  rw [SetAddrs_entry_self ro mgr p addrs ttl now]
  exact ro.uniq_run (setLoop_wf _ _ _ _ (amapOf_wf _)).uniq_values

theorem SetAddrs_mem (ro : RangeOrder) (mgr : AddrManager) (p : PeerID)
    (addrs : List (Option Multiaddr)) (ttl : Duration) (now : Time) (e : expiringAddr) :
    e ∈ (SetAddrs ro mgr p addrs ttl now).1.entry p
      ↔ setKey addrs ttl (now + ttl) e.Addr.Bytes (lastRecord (mgr.entry p) e.Addr.Bytes)
          = some e := by
  rw [SetAddrs_entry_self ro mgr p addrs ttl now,
    mem_run_values ro (setLoop_wf _ _ _ _ (amapOf_wf _)), setLoop_get?, amapOf_get?]
  rfl

theorem Addrs_result (mgr : AddrManager) (p : PeerID) (t : Time) :
    (Addrs mgr p t).2
      = ((mgr.entry p).filter (fun r => !r.ExpiredBy t)).map (fun r => r.Addr) := by
  unfold Addrs AddrManager.entry AddrManager.addrsMap
  cases hm : mgr.addrs with
  | none => simp [GoMap.empty, GoMap.get?]
  | some m =>
    cases hg : m.get? p with
    | none => simp [hg]
    | some maddrs =>
      simp only [hg]
      split <;> rfl

theorem addKey_bytes (addrs : List (Option Multiaddr)) (ttl : Duration) (exp : Time)
    (a : Multiaddr) (cur : Option expiringAddr) :
    addKey addrs ttl exp a.Bytes cur
      = if some a ∈ addrs then addMerge ttl exp a cur else cur := rfl

theorem setKey_bytes (addrs : List (Option Multiaddr)) (ttl : Duration) (exp : Time)
    (a : Multiaddr) (cur : Option expiringAddr) :
    setKey addrs ttl exp a.Bytes cur
      = if some a ∈ addrs then setMerge ttl exp a else cur := rfl

theorem lastRecord_none_of_no_addr {s : addrSlice} {a : Multiaddr}
    (h : ∀ r ∈ s, r.Addr ≠ a) : lastRecord s a.Bytes = none :=
  lastRecord_none.2 (fun r hr hb => h r hr (Multiaddr.eq_of_bytes hb))

theorem notExpiredBy_eq (t : Time) :
    (fun r : expiringAddr => !r.ExpiredBy t) = (fun r : expiringAddr => decide (t ≤ r.Expires)) := by
  funext r
  by_cases h : t ≤ r.Expires
  · simp [expiringAddr.ExpiredBy, h]
  · simp [expiringAddr.ExpiredBy, h, not_le.1 h]

theorem Addrs_mem (mgr : AddrManager) (p : PeerID) (t : Time) (a : Multiaddr) :
    a ∈ (Addrs mgr p t).2 ↔ ∃ r ∈ mgr.entry p, r.Addr = a ∧ t ≤ r.Expires := by
  rw [Addrs_result, notExpiredBy_eq]
  simp only [List.mem_map, List.mem_filter, decide_eq_true_eq]
  constructor
  · rintro ⟨r, ⟨hr, ht⟩, rfl⟩
    exact ⟨r, hr, rfl, ht⟩
  · rintro ⟨r, hr, rfl, ht⟩
    exact ⟨r, ⟨hr, ht⟩, rfl⟩

theorem UpdateAddrs_entry (mgr : AddrManager) (p : PeerID) (oldTTL newTTL : Duration)
    (now : Time) :
    (UpdateAddrs mgr p oldTTL newTTL now).entry p
      = (mgr.entry p).map (updateRecord oldTTL newTTL now) := by
  unfold UpdateAddrs
  cases hm : mgr.addrs with
  | none => simp [AddrManager.entry, AddrManager.addrsMap, hm, GoMap.empty, GoMap.get?]
  | some m =>
    cases hg : m.get? p with
    | none => simp [AddrManager.entry, AddrManager.addrsMap, hm, hg]
    | some maddrs =>
      simp only [hg]
      rw [entry_set, if_pos rfl]
      simp only [AddrManager.entry, AddrManager.addrsMap, hm, hg]
      rfl

theorem UpdateAddrs_no_entry (mgr : AddrManager) (p : PeerID) (oldTTL newTTL : Duration)
    (now : Time) (h : mgr.addrsMap.get? p = none) : UpdateAddrs mgr p oldTTL newTTL now = mgr := by
  unfold UpdateAddrs
  cases hm : mgr.addrs with
  | none => rfl
  | some m =>
    have hg : m.get? p = none := by simpa [AddrManager.addrsMap, hm] using h
    simp [hg]

theorem updateRecord_addr (oldTTL newTTL : Duration) (now : Time) (r : expiringAddr) :
    (updateRecord oldTTL newTTL now r).Addr = r.Addr := by
  unfold updateRecord
  split <;> rfl

theorem Uniq.map_update {s : addrSlice} (h : Uniq s) (oldTTL newTTL : Duration) (now : Time) :
    Uniq (s.map (updateRecord oldTTL newTTL now)) := by
  unfold Uniq at *
  rw [List.map_map]
  have : ((fun r : expiringAddr => r.Addr.Bytes) ∘ updateRecord oldTTL newTTL now)
      = (fun r : expiringAddr => r.Addr.Bytes) := by
    funext r
    simp [updateRecord_addr]
  rw [this]
  exact h

theorem Uniq.filter_uniq {s : addrSlice} (h : Uniq s) (f : expiringAddr → Bool) :
    Uniq (s.filter f) := by
  unfold Uniq at *
  exact ((List.filter_sublist s).map _).nodup h

theorem StoreUniq.of_set {mgr' : AddrManager} {m : GoMap PeerID addrSlice} {p : PeerID}
    {v : addrSlice} (hm : ∀ kv ∈ m, Uniq kv.2) (hv : Uniq v) (h : mgr'.addrs = some (m.set p v)) :
    StoreUniq mgr' := by
  intro kv hkv
  simp only [AddrManager.addrsMap, h] at hkv
  rcases GoMap.mem_set hkv with h1 | h1
  · rw [h1]
    exact hv
  · exact hm kv h1

theorem StoreUniq.of_delete {mgr' : AddrManager} {m : GoMap PeerID addrSlice} {p : PeerID}
    (hm : ∀ kv ∈ m, Uniq kv.2) (h : mgr'.addrs = some (m.delete p)) :
    StoreUniq mgr' := by
  intro kv hkv
  simp only [AddrManager.addrsMap, h] at hkv
  exact hm kv (GoMap.mem_delete hkv)

theorem StoreUniq.uniq_entry {mgr : AddrManager} (h : StoreUniq mgr) (p : PeerID) :
    Uniq (mgr.entry p) := by
  unfold AddrManager.entry
  cases hg : mgr.addrsMap.get? p with
  | none => exact List.nodup_nil
  | some v => exact h _ (GoMap.mem_of_get?_eq_some hg)

theorem StoreUniq.init_wf {mgr : AddrManager} (h : StoreUniq mgr) :
    ∀ kv ∈ mgr.init.addrsMap, Uniq kv.2 := by
  rw [init_addrsMap]
  exact h

theorem StoreUniq.after_AddAddrs {mgr : AddrManager} (h : StoreUniq mgr) (ro : RangeOrder)
    (p : PeerID) (addrs : List (Option Multiaddr)) (ttl : Duration) (now : Time) :
    StoreUniq (AddAddrs ro mgr p addrs ttl now).1 := by
  by_cases ht : ttl ≤ 0
  · unfold Peerstore.AddAddrs
    rw [if_pos ht]
    exact h
  · have hu := AddAddrs_uniq ro mgr p addrs ttl now (not_le.1 ht)
    rw [AddAddrs_entry_self ro mgr p addrs ttl now (not_le.1 ht)] at hu
    refine StoreUniq.of_set (p := p) h.init_wf hu ?_
    unfold Peerstore.AddAddrs
    rw [if_neg ht]
    simp only [init_entry]

theorem StoreUniq.after_SetAddrs {mgr : AddrManager} (h : StoreUniq mgr) (ro : RangeOrder)
    (p : PeerID) (addrs : List (Option Multiaddr)) (ttl : Duration) (now : Time) :
    StoreUniq (SetAddrs ro mgr p addrs ttl now).1 := by
  have hu := SetAddrs_uniq ro mgr p addrs ttl now
  rw [SetAddrs_entry_self ro mgr p addrs ttl now] at hu
  refine StoreUniq.of_set (p := p) h.init_wf hu ?_
  unfold Peerstore.SetAddrs
  simp only [init_entry]

theorem StoreUniq.after_UpdateAddrs {mgr : AddrManager} (h : StoreUniq mgr) (p : PeerID)
    (oldTTL newTTL : Duration) (now : Time) :
    StoreUniq (UpdateAddrs mgr p oldTTL newTTL now) := by
  unfold Peerstore.UpdateAddrs
  cases hm : mgr.addrs with
  | none => simpa [hm] using h
  | some m =>
    have hm' : ∀ kv ∈ m, Uniq kv.2 := by simpa [StoreUniq, AddrManager.addrsMap, hm] using h
    cases hg : m.get? p with
    | none =>
      simp only [hg]
      exact h
    | some maddrs =>
      simp only [hg]
      have hv : Uniq maddrs := hm' _ (GoMap.mem_of_get?_eq_some hg)
      exact StoreUniq.of_set hm' (hv.map_update oldTTL newTTL now) rfl

theorem StoreUniq.after_Addrs {mgr : AddrManager} (h : StoreUniq mgr) (p : PeerID) (now : Time) :
    StoreUniq (Addrs mgr p now).1 := by
  unfold Peerstore.Addrs
  cases hm : mgr.addrs with
  | none => simpa [hm] using h
  | some m =>
    have hm' : ∀ kv ∈ m, Uniq kv.2 := by simpa [StoreUniq, AddrManager.addrsMap, hm] using h
    cases hg : m.get? p with
    | none =>
      simp only [hg]
      exact h
    | some maddrs =>
      simp only [hg]
      have hv : Uniq maddrs := hm' _ (GoMap.mem_of_get?_eq_some hg)
      split
      · exact StoreUniq.of_delete hm' rfl
      · exact StoreUniq.of_set hm' (hv.filter_uniq _) rfl

theorem StoreUniq.after_ClearAddrs {mgr : AddrManager} (h : StoreUniq mgr) (p : PeerID) :
    StoreUniq (ClearAddrs mgr p) :=
  StoreUniq.of_delete h.init_wf rfl

theorem StoreUniq.of_zero : StoreUniq AddrManager.zero := fun _ h => by cases h

theorem Reachable.storeUniq {mgr : AddrManager} (h : Reachable mgr) : StoreUniq mgr := by
  induction h with
  | zero => exact StoreUniq.of_zero
  | addAddrs ro mgr p addrs ttl now _ ih => exact ih.after_AddAddrs ro p addrs ttl now
  | setAddrs ro mgr p addrs ttl now _ ih => exact ih.after_SetAddrs ro p addrs ttl now
  | updateAddrs mgr p oldTTL newTTL now _ ih => exact ih.after_UpdateAddrs p oldTTL newTTL now
  | addrs mgr p now _ ih => exact ih.after_Addrs p now
  | clearAddrs mgr p _ ih => exact ih.after_ClearAddrs p

theorem addMerge_addMerge_le (ttl : Duration) {e1 e2 : Time} (h : e1 ≤ e2) (a : Multiaddr)
    (cur : Option expiringAddr) :
    addMerge ttl e2 a (addMerge ttl e1 a cur) = addMerge ttl e2 a cur := by
  cases cur with
  | none =>
    rcases lt_or_eq_of_le h with h1 | h1
    · simp [addMerge, h1]
    · subst h1
      simp [addMerge]
  | some r =>
    by_cases hr : e1 > r.Expires
    · have hr2 : e2 > r.Expires := lt_of_lt_of_le hr h
      rcases lt_or_eq_of_le h with h1 | h1
      · simp [addMerge, hr, hr2, h1]
      · subst h1
        simp [addMerge, hr]
    · simp [addMerge, hr]

theorem addKey_addKey_le (addrs : List (Option Multiaddr)) (ttl : Duration) {e1 e2 : Time}
    (h : e1 ≤ e2) (k : List Nat) (cur : Option expiringAddr) :
    addKey addrs ttl e2 k (addKey addrs ttl e1 k cur) = addKey addrs ttl e2 k cur := by
  unfold addKey
  by_cases hm : some (Multiaddr.mk k) ∈ addrs
  · simp only [hm, if_true]
    exact addMerge_addMerge_le ttl h _ cur
  · simp only [hm, if_false]

theorem AddAddrs_get?_self (ro : RangeOrder) (mgr : AddrManager) (p : PeerID)
    (addrs : List (Option Multiaddr)) (ttl : Duration) (now : Time) (ht : 0 < ttl) :
    ((AddAddrs ro mgr p addrs ttl now).1.addrsMap.get? p).isSome = true := by
  unfold AddAddrs
  rw [if_neg (not_le.2 ht)]
  simp [AddrManager.addrsMap, GoMap.get?_set]

theorem AddAddrs_get?_other (ro : RangeOrder) (mgr : AddrManager) (p q : PeerID)
    (addrs : List (Option Multiaddr)) (ttl : Duration) (now : Time) (hq : p ≠ q) :
    (AddAddrs ro mgr p addrs ttl now).1.addrsMap.get? q = mgr.addrsMap.get? q := by
  unfold AddAddrs
  by_cases ht : ttl ≤ 0
  · rw [if_pos ht]
  · rw [if_neg ht]
    simp only [AddrManager.addrsMap, GoMap.get?_set, if_neg hq]
    exact congrArg (fun m => GoMap.get? m q) (init_addrsMap mgr)

theorem AddAddrs_bcast_mem (ro : RangeOrder) (mgr : AddrManager) (p : PeerID)
    (addrs : List (Option Multiaddr)) (ttl : Duration) (now : Time) (ht : 0 < ttl)
    (a : Multiaddr) :
    a ∈ (AddAddrs ro mgr p addrs ttl now).2
      ↔ some a ∈ addrs ∧ addFires (now + ttl) (lastRecord (mgr.entry p) a.Bytes) = true := by
  rw [AddAddrs_bcast_eq ro mgr p addrs ttl now ht, addLoop_bcast, amapOf_get?]
  simp

theorem addMerge_ne_none (ttl : Duration) (exp : Time) (a : Multiaddr)
    (cur : Option expiringAddr) : addMerge ttl exp a cur ≠ none := by
  cases cur with
  | none => simp [addMerge]
  | some r => by_cases hr : exp > r.Expires <;> simp [addMerge, hr]

theorem addFires_addMerge (ttl : Duration) (exp : Time) (a : Multiaddr)
    (cur : Option expiringAddr) : addFires exp (addMerge ttl exp a cur) = false := by
  cases cur with
  | none => simp [addMerge, addFires]
  | some r =>
    by_cases hr : exp > r.Expires
    · simp [addMerge, addFires, hr]
    · have h1 : addMerge ttl exp a (some r) = some r := by simp [addMerge, hr]
      rw [h1]
      simp only [addFires]
      exact decide_eq_false hr

theorem exists_addr_iff (s : addrSlice) (a : Multiaddr) :
    (∃ r ∈ s, r.Addr = a) ↔ lastRecord s a.Bytes ≠ none := by
  rw [Ne, lastRecord_none]
  constructor
  · rintro ⟨r, hr, rfl⟩ hall
    exact hall r hr rfl
  · intro h
    by_contra hne
    exact h (fun r hr hb => hne ⟨r, hr, Multiaddr.eq_of_bytes hb⟩)

theorem ClearAddrs_get? (mgr : AddrManager) (p q : PeerID) :
    (ClearAddrs mgr p).addrsMap.get? q = if p = q then none else mgr.addrsMap.get? q := by
  unfold ClearAddrs
  simp only [AddrManager.addrsMap, GoMap.get?_delete]
  by_cases h : p = q
  · simp [h]
  · simp only [h, if_false]
    exact congrArg (fun m => GoMap.get? m q) (init_addrsMap mgr)

theorem ClearAddrs_entry_self (mgr : AddrManager) (p : PeerID) : (ClearAddrs mgr p).entry p = [] := by
  unfold AddrManager.entry
  rw [ClearAddrs_get?, if_pos rfl]

theorem Addrs_no_entry (mgr : AddrManager) (p : PeerID) (t : Time)
    (h : mgr.addrsMap.get? p = none) : Addrs mgr p t = (mgr, []) := by
  unfold Addrs
  cases hm : mgr.addrs with
  | none => rfl
  | some m =>
    have hg : m.get? p = none := by simpa [AddrManager.addrsMap, hm] using h
    simp [hg]

theorem Uniq.eq_of_addr {s : addrSlice} (hu : Uniq s) {r r' : expiringAddr} (hr : r ∈ s)
    (hr' : r' ∈ s) (h : r'.Addr = r.Addr) : r' = r := by
  have h1 := lastRecord_of_mem hu hr
  have h2 := lastRecord_of_mem hu hr'
  rw [h, h1] at h2
  exact (Option.some.inj h2).symm

/-! ## Facts used by the claims on nil addresses and broadcasts -/

theorem addLoop_filter (ttl : Duration) (exp : Time) (addrs : List (Option Multiaddr))
    (st : GoMap (List Nat) expiringAddr × List Multiaddr) :
    addrs.foldl (addAddrsStep ttl exp) st
      = (addrs.filter (fun a => a.isSome)).foldl (addAddrsStep ttl exp) st := by
  induction addrs generalizing st with
  | nil => rfl
  | cons a addrs ih =>
    cases a with
    | none =>
      rw [List.foldl_cons, List.filter_cons_of_neg (by simp)]
      exact ih st
    | some a =>
      rw [List.foldl_cons, List.filter_cons_of_pos (by simp), List.foldl_cons]
      exact ih _

theorem setLoop_filter (ttl : Duration) (exp : Time) (addrs : List (Option Multiaddr))
    (st : GoMap (List Nat) expiringAddr × List Multiaddr) :
    addrs.foldl (setAddrsStep ttl exp) st
      = (addrs.filter (fun a => a.isSome)).foldl (setAddrsStep ttl exp) st := by
  induction addrs generalizing st with
  | nil => rfl
  | cons a addrs ih =>
    cases a with
    | none =>
      rw [List.foldl_cons, List.filter_cons_of_neg (by simp)]
      exact ih st
    | some a =>
      rw [List.foldl_cons, List.filter_cons_of_pos (by simp), List.foldl_cons]
      exact ih _

theorem setLoop_bcast (ttl : Duration) (exp : Time) (addrs : List (Option Multiaddr))
    (st : GoMap (List Nat) expiringAddr × List Multiaddr) :
    (addrs.foldl (setAddrsStep ttl exp) st).2
      = st.2 ++ (if ttl > 0 then addrs.filterMap id else []) := by
  induction addrs generalizing st with
  | nil => by_cases ht : ttl > 0 <;> simp [ht]
  | cons a addrs ih =>
    rw [List.foldl_cons, ih]
    cases a with
    | none => by_cases ht : ttl > 0 <;> simp [setAddrsStep, ht]
    | some a => by_cases ht : ttl > 0 <;> simp [setAddrsStep, ht]

theorem SetAddrs_bcast_eq (ro : RangeOrder) (mgr : AddrManager) (p : PeerID)
    (addrs : List (Option Multiaddr)) (ttl : Duration) (now : Time) :
    (SetAddrs ro mgr p addrs ttl now).2 = if ttl > 0 then addrs.filterMap id else [] := by
  unfold SetAddrs
  simp only [setLoop_bcast, List.nil_append]

theorem GoMap.mem_keys_iff {κ ν : Type} [DecidableEq κ] (m : GoMap κ ν) (k : κ) :
    k ∈ m.keys ↔ (m.get? k).isSome = true := by
  induction m with
  | nil => simp [GoMap.keys, GoMap.get?]
  | cons kv m ih =>
    obtain ⟨k0, v0⟩ := kv
    unfold GoMap.keys at ih ⊢
    by_cases h : k0 = k
    · simp [GoMap.get?, h]
    · simp only [List.map_cons, List.mem_cons, GoMap.get?, h, if_false]
      rw [← ih]
      constructor
      · rintro (h1 | h1)
        · exact absurd h1.symm h
        · exact h1
      · exact fun h1 => Or.inr h1

theorem Peers_mem (mgr : AddrManager) (q : PeerID) :
    q ∈ Peers mgr ↔ (mgr.addrsMap.get? q).isSome = true := by
  unfold Peers AddrManager.addrsMap
  cases mgr.addrs with
  | none => simp [GoMap.empty, GoMap.get?]
  | some m => exact GoMap.mem_keys_iff m q

theorem SetAddrs_get?_self (ro : RangeOrder) (mgr : AddrManager) (p : PeerID)
    (addrs : List (Option Multiaddr)) (ttl : Duration) (now : Time) :
    ((SetAddrs ro mgr p addrs ttl now).1.addrsMap.get? p).isSome = true := by
  unfold SetAddrs
  simp [AddrManager.addrsMap, GoMap.get?_set]

theorem SetAddrs_get?_other (ro : RangeOrder) (mgr : AddrManager) (p q : PeerID)
    (addrs : List (Option Multiaddr)) (ttl : Duration) (now : Time) (hq : p ≠ q) :
    (SetAddrs ro mgr p addrs ttl now).1.addrsMap.get? q = mgr.addrsMap.get? q := by
  unfold SetAddrs
  simp only [AddrManager.addrsMap, GoMap.get?_set, if_neg hq]
  exact congrArg (fun m => GoMap.get? m q) (init_addrsMap mgr)

theorem SetAddrs_peers (ro : RangeOrder) (mgr : AddrManager) (p : PeerID)
    (addrs : List (Option Multiaddr)) (ttl : Duration) (now : Time) (q : PeerID) :
    q ∈ Peers (SetAddrs ro mgr p addrs ttl now).1 ↔ q = p ∨ q ∈ Peers mgr := by
  rw [Peers_mem, Peers_mem]
  by_cases hq : p = q
  · subst hq
    simp [SetAddrs_get?_self]
  · rw [SetAddrs_get?_other ro mgr p q addrs ttl now hq]
    simp [Ne.symm hq]

theorem AddAddrs_peers (ro : RangeOrder) (mgr : AddrManager) (p : PeerID)
    (addrs : List (Option Multiaddr)) (ttl : Duration) (now : Time) (ht : 0 < ttl) (q : PeerID) :
    q ∈ Peers (AddAddrs ro mgr p addrs ttl now).1 ↔ q = p ∨ q ∈ Peers mgr := by
  rw [Peers_mem, Peers_mem]
  by_cases hq : p = q
  · subst hq
    simp [AddAddrs_get?_self ro mgr p addrs ttl now ht]
  · rw [AddAddrs_get?_other ro mgr p q addrs ttl now hq]
    simp [Ne.symm hq]

theorem SetAddrs_nil_entry (ro : RangeOrder) (mgr : AddrManager) (p : PeerID)
    (ttl : Duration) (now : Time) (hu : Uniq (mgr.entry p)) (q : PeerID) (r : expiringAddr) :
    r ∈ (SetAddrs ro mgr p [none] ttl now).1.entry q ↔ r ∈ mgr.entry q := by
  by_cases hq : p = q
  · subst hq
    rw [SetAddrs_mem, setKey_bytes, if_neg (by simp), lastRecord_iff hu]
    simp
  · rw [SetAddrs_entry_other ro mgr p q [none] ttl now hq]

theorem AddAddrs_nil_entry (ro : RangeOrder) (mgr : AddrManager) (p : PeerID)
    (ttl : Duration) (now : Time) (hu : Uniq (mgr.entry p)) (q : PeerID) (r : expiringAddr) :
    r ∈ (AddAddrs ro mgr p [none] ttl now).1.entry q ↔ r ∈ mgr.entry q := by
  by_cases hq : p = q
  · subst hq
    by_cases ht : 0 < ttl
    · rw [AddAddrs_mem ro mgr p [none] ttl now ht, addKey_bytes, if_neg (by simp),
        lastRecord_iff hu]
      simp
    · unfold AddAddrs
      rw [if_pos (not_lt.1 ht)]
  · rw [AddAddrs_entry_other ro mgr p q [none] ttl now hq]

theorem Addrs_mem_congr {m1 m2 : AddrManager} {q : PeerID}
    (h : ∀ r, r ∈ m1.entry q ↔ r ∈ m2.entry q) (t : Time) (a : Multiaddr) :
    a ∈ (Addrs m1 q t).2 ↔ a ∈ (Addrs m2 q t).2 := by
  rw [Addrs_mem, Addrs_mem]
  constructor
  · rintro ⟨r, hr, h1⟩
    exact ⟨r, (h r).1 hr, h1⟩
  · rintro ⟨r, hr, h1⟩
    exact ⟨r, (h r).2 hr, h1⟩

/-! ## Facts about subscriptions -/

theorem sentAt_set (sent : GoMap (List Nat) Bool) (k k' : List Nat) :
    sentAt (sent.set k true) k' = true ↔ k = k' ∨ sentAt sent k' = true := by
  unfold sentAt
  rw [GoMap.get?_set]
  by_cases h : k = k' <;> simp [h]

theorem sentAt_foldl (buffer : List Multiaddr) (sent : GoMap (List Nat) Bool) (a : Multiaddr) :
    sentAt (buffer.foldl (fun (sent : GoMap (List Nat) Bool) b => sent.set b.Bytes true) sent)
        a.Bytes = true
      ↔ a ∈ buffer ∨ sentAt sent a.Bytes = true := by
  induction buffer generalizing sent with
  | nil => simp
  | cons b buffer ih =>
    rw [List.foldl_cons, ih, sentAt_set, List.mem_cons]
    constructor
    · rintro (h | h | h)
      · exact Or.inl (Or.inr h)
      · exact Or.inl (Or.inl (Multiaddr.eq_of_bytes h.symm))
      · exact Or.inr h
    · rintro ((h | h) | h)
      · exact Or.inr (Or.inl (by rw [h]))
      · exact Or.inl h
      · exact Or.inr (Or.inr h)

theorem subStart_pending (buffer : List Multiaddr) : (subStart buffer).pending = buffer := by
  cases buffer <;> rfl

theorem subStart_out (buffer : List Multiaddr) : (subStart buffer).out = [] := by
  cases buffer <;> rfl

theorem subStart_sent (buffer : List Multiaddr) (a : Multiaddr) :
    sentAt (subStart buffer).sent a.Bytes = true ↔ a ∈ buffer := by
  have h := sentAt_foldl buffer GoMap.empty a
  have h0 : sentAt (GoMap.empty : GoMap (List Nat) Bool) a.Bytes = false := rfl
  rw [h0] at h
  cases buffer with
  | nil => simpa [subStart] using h
  | cons b rest => simpa [subStart] using h

theorem subStart_wf (buffer : List Multiaddr) : SubWF (subStart buffer) buffer := by
  refine ⟨?_, ?_, subStart_sent buffer⟩
  · cases buffer <;> rfl
  · cases buffer with
    | nil => intro _; rfl
    | cons b rest => intro h; cases h

theorem freshPubs_mem (seen pubs : List Multiaddr) (a : Multiaddr) :
    a ∈ freshPubs seen pubs ↔ a ∈ pubs ∧ a ∉ seen := by
  induction pubs generalizing seen with
  | nil => simp [freshPubs]
  | cons b pubs ih =>
    unfold freshPubs
    by_cases hb : b ∈ seen
    · rw [if_pos hb, ih, List.mem_cons]
      constructor
      · exact fun h => ⟨Or.inr h.1, h.2⟩
      · rintro ⟨h1 | h1, h2⟩
        · exact absurd (h1 ▸ hb) h2
        · exact ⟨h1, h2⟩
    · rw [if_neg hb, List.mem_cons, ih, List.mem_cons, List.mem_cons]
      constructor
      · rintro (h | ⟨h1, h2⟩)
        · exact ⟨Or.inl h, h ▸ hb⟩
        · exact ⟨Or.inr h1, fun h3 => h2 (Or.inr h3)⟩
      · rintro ⟨h1 | h1, h2⟩
        · exact Or.inl h1
        · by_cases hab : a = b
          · exact Or.inl hab
          · exact Or.inr ⟨h1, fun h3 => h3.elim hab h2⟩

theorem freshPubs_nodup (seen pubs : List Multiaddr) : (freshPubs seen pubs).Nodup := by
  induction pubs generalizing seen with
  | nil => exact List.nodup_nil
  | cons b pubs ih =>
    unfold freshPubs
    by_cases hb : b ∈ seen
    · rw [if_pos hb]
      exact ih seen
    · rw [if_neg hb, List.nodup_cons]
      refine ⟨fun h => ?_, ih _⟩
      exact ((freshPubs_mem _ _ _).1 h).2 (List.mem_cons_self _ _)

theorem snapshot_fresh_nodup {snapshot : List Multiaddr} (h : snapshot.Nodup)
    (pubs : List Multiaddr) : (snapshot ++ freshPubs snapshot pubs).Nodup := by
  rw [List.nodup_append]
  refine ⟨h, freshPubs_nodup _ _, fun a ha hb => ?_⟩
  exact ((freshPubs_mem _ _ _).1 hb).2 ha

theorem subStep_send_spec {s s' : addrSubState} {seen : List Multiaddr} (hwf : SubWF s seen)
    (h : subStep s SubEvent.send = some s') :
    SubWF s' seen ∧ s'.out ++ s'.pending.map some = s.out ++ s.pending.map some := by
  obtain ⟨h1, h2, h3⟩ := hwf
  simp only [subStep] at h
  cases hn : s.next with
  | none =>
    rw [hn] at h1
    simp [h1] at h
  | some a =>
    rw [hn] at h1
    simp only [h1, Option.isSome_some, if_true] at h
    cases hb : s.buffer with
    | nil =>
      rw [hb] at h
      simp only [Option.some.injEq] at h
      subst h
      refine ⟨⟨rfl, fun _ => rfl, h3⟩, ?_⟩
      simp [addrSubState.pending, hn, hb]
    | cons b rest =>
      rw [hb] at h
      simp only [Option.some.injEq] at h
      subst h
      refine ⟨⟨?_, ?_, h3⟩, ?_⟩
      · simp
      · intro hx
        simp at hx
      · simp [addrSubState.pending, hn, hb]

theorem subStep_pub_spec {s s' : addrSubState} {seen : List Multiaddr} (hwf : SubWF s seen)
    (a : Multiaddr) (h : subStep s (SubEvent.pub a) = some s') :
    (a ∈ seen → s' = s)
      ∧ (a ∉ seen → SubWF s' (a :: seen) ∧ s'.out = s.out ∧ s'.pending = s.pending ++ [a]) := by
  obtain ⟨h1, h2, h3⟩ := hwf
  simp only [subStep] at h
  by_cases hs : a ∈ seen
  · rw [if_pos ((h3 a).2 hs)] at h
    exact ⟨fun _ => (Option.some.inj h).symm, fun hx => absurd hs hx⟩
  · have hf : ¬ (sentAt s.sent a.Bytes = true) := fun hx => hs ((h3 a).1 hx)
    rw [if_neg hf] at h
    refine ⟨fun hx => absurd hx hs, fun _ => ?_⟩
    have hsent : ∀ b : Multiaddr,
        sentAt (s.sent.set a.Bytes true) b.Bytes = true ↔ b ∈ a :: seen := by
      intro b
      rw [sentAt_set, List.mem_cons, h3 b]
      constructor
      · rintro (hx | hx)
        · exact Or.inl (Multiaddr.eq_of_bytes hx.symm)
        · exact Or.inr hx
      · rintro (hx | hx)
        · exact Or.inl (by rw [hx])
        · exact Or.inr hx
    cases hn : s.next with
    | none =>
      rw [hn] at h
      simp only [Option.some.injEq] at h
      subst h
      refine ⟨⟨?_, ?_, hsent⟩, rfl, ?_⟩
      · simp
      · intro hx
        simp at hx
      · simp [addrSubState.pending, hn, h2 hn]
    | some b =>
      rw [hn] at h
      simp only [Option.some.injEq] at h
      subst h
      refine ⟨⟨?_, ?_, hsent⟩, rfl, ?_⟩
      · simpa [hn] using h1
      · intro hx
        simp [hn] at hx
      · simp [addrSubState.pending, hn]

theorem subRun_spec (events : List SubEvent) (s s' : addrSubState) (seen : List Multiaddr)
    (hwf : SubWF s seen) (h : subRun s events = some s') :
    (∃ seen', SubWF s' seen' ∧ ∀ a, a ∈ seen' ↔ a ∈ seen ∨ a ∈ pubsOf events)
      ∧ s'.out ++ s'.pending.map some
          = s.out ++ (s.pending ++ freshPubs seen (pubsOf events)).map some := by
  induction events generalizing s seen with
  | nil =>
    simp only [subRun, Option.some.injEq] at h
    subst h
    exact ⟨⟨seen, hwf, fun a => by simp [pubsOf]⟩, by simp [pubsOf, freshPubs]⟩
  | cons e events ih =>
    unfold subRun at h
    cases hstep : subStep s e with
    | none => simp [hstep] at h
    | some s1 =>
      simp only [hstep] at h
      cases e with
      | send =>
        obtain ⟨hwf1, heq1⟩ := subStep_send_spec hwf hstep
        obtain ⟨hseen, heq⟩ := ih s1 seen hwf1 h
        refine ⟨hseen, ?_⟩
        rw [heq, List.map_append, ← List.append_assoc, heq1]
        simp [pubsOf]
      | pub a =>
        obtain ⟨hin, hout⟩ := subStep_pub_spec hwf a hstep
        by_cases hs : a ∈ seen
        · have hs1 := hin hs
          subst hs1
          obtain ⟨⟨seen', hwf', hmem⟩, heq⟩ := ih s1 seen hwf h
          refine ⟨⟨seen', hwf', fun b => ?_⟩, ?_⟩
          · rw [hmem b]
            simp only [pubsOf, List.mem_cons]
            constructor
            · rintro (hx | hx)
              · exact Or.inl hx
              · exact Or.inr (Or.inr hx)
            · rintro (hx | hx | hx)
              · exact Or.inl hx
              · exact Or.inl (hx ▸ hs)
              · exact Or.inr hx
          · rw [heq]
            simp [pubsOf, freshPubs, hs]
        · obtain ⟨hwf1, hout1, hpend1⟩ := hout hs
          obtain ⟨⟨seen', hwf', hmem⟩, heq⟩ := ih s1 (a :: seen) hwf1 h
          refine ⟨⟨seen', hwf', fun b => ?_⟩, ?_⟩
          · rw [hmem b]
            simp only [pubsOf, List.mem_cons]
            constructor
            · rintro ((hx | hx) | hx)
              · exact Or.inr (Or.inl hx)
              · exact Or.inl hx
              · exact Or.inr (Or.inr hx)
            · rintro (hx | hx | hx)
              · exact Or.inl (Or.inr hx)
              · exact Or.inl (Or.inl hx)
              · exact Or.inr hx
          · rw [heq, hout1, hpend1]
            simp [pubsOf, freshPubs, hs]

theorem AddrStream_state (srt : AddrListSort) (mgr : AddrManager) (p : PeerID) (sub : Nat) :
    (AddrStream srt mgr p sub).2 = subStart (srt.run ((mgr.entry p).map (fun a => a.Addr))) := by
  unfold AddrStream AddrSubManager.AddrStream
  simp only [init_entry]

/-! ## Facts used by the frame and sentinel claims -/

theorem UpdateAddrs_get?_other (mgr : AddrManager) (p q : PeerID) (oldTTL newTTL : Duration)
    (now : Time) (hq : p ≠ q) :
    (UpdateAddrs mgr p oldTTL newTTL now).addrsMap.get? q = mgr.addrsMap.get? q := by
  unfold UpdateAddrs
  cases hm : mgr.addrs with
  | none => simp [AddrManager.addrsMap, hm]
  | some m =>
    cases hg : m.get? p with
    | none => simp [AddrManager.addrsMap, hm, hg]
    | some maddrs => simp [AddrManager.addrsMap, hm, hg, GoMap.get?_set, hq]

theorem Addrs_get?_other (mgr : AddrManager) (p q : PeerID) (now : Time) (hq : p ≠ q) :
    (Addrs mgr p now).1.addrsMap.get? q = mgr.addrsMap.get? q := by
  unfold Addrs
  cases hm : mgr.addrs with
  | none => simp [AddrManager.addrsMap, hm]
  | some m =>
    cases hg : m.get? p with
    | none => simp [AddrManager.addrsMap, hm, hg]
    | some maddrs =>
      simp only [hg]
      split
      · simp [AddrManager.addrsMap, GoMap.get?_delete, hq, hm]
      · simp [AddrManager.addrsMap, GoMap.get?_set, hq, hm]

theorem entry_congr {m1 m2 : AddrManager} {q : PeerID}
    (h : m1.addrsMap.get? q = m2.addrsMap.get? q) : m1.entry q = m2.entry q := by
  unfold AddrManager.entry
  rw [h]

theorem Addrs_result_congr {m1 m2 : AddrManager} {q : PeerID}
    (h : m1.addrsMap.get? q = m2.addrsMap.get? q) (t : Time) :
    (Addrs m1 q t).2 = (Addrs m2 q t).2 := by
  rw [Addrs_result, Addrs_result, entry_congr h]

/-! ## Facts about the broadcasts of `AddAddrs` -/

theorem addAddrsStep_bcast_inv (ttl : Duration) (exp : Time)
    (st : GoMap (List Nat) expiringAddr × List Multiaddr) (addr : Option Multiaddr)
    (hnd : st.2.Nodup) (hq : ∀ a ∈ st.2, addFires exp (st.1.get? a.Bytes) = false) :
    (addAddrsStep ttl exp st addr).2.Nodup
      ∧ ∀ a ∈ (addAddrsStep ttl exp st addr).2,
          addFires exp ((addAddrsStep ttl exp st addr).1.get? a.Bytes) = false := by
  cases addr with
  | none => exact ⟨hnd, hq⟩
  | some b =>
    rw [addAddrsStep_some]
    by_cases hf : addFires exp (st.1.get? b.Bytes) = true
    · have hb : b ∉ st.2 := fun hb => by
        have := hq b hb
        rw [hf] at this
        cases this
      simp only [hf, if_true]
      refine ⟨List.nodup_append.2 ⟨hnd, List.nodup_singleton b, ?_⟩, ?_⟩
      · intro x hx hx'
        rw [List.mem_singleton] at hx'
        exact hb (hx' ▸ hx)
      · intro a ha
        rw [GoMap.get?_set]
        rcases List.mem_append.1 ha with ha | ha
        · have hne : ¬ (b.Bytes = a.Bytes) := fun e =>
            hb (Multiaddr.eq_of_bytes e ▸ ha)
          rw [if_neg hne]
          exact hq a ha
        · rw [List.mem_singleton] at ha
          subst ha
          simp [addFires]
    · simp only [hf, if_false]
      exact ⟨hnd, hq⟩

theorem addLoop_bcast_nodup (ttl : Duration) (exp : Time) (addrs : List (Option Multiaddr))
    (st : GoMap (List Nat) expiringAddr × List Multiaddr)
    (hnd : st.2.Nodup) (hq : ∀ a ∈ st.2, addFires exp (st.1.get? a.Bytes) = false) :
    (addrs.foldl (addAddrsStep ttl exp) st).2.Nodup := by
  induction addrs generalizing st with
  | nil => exact hnd
  | cons a addrs ih =>
    rw [List.foldl_cons]
    have h := addAddrsStep_bcast_inv ttl exp st a hnd hq
    exact ih _ h.1 h.2

theorem AddAddrs_bcast_nodup (ro : RangeOrder) (mgr : AddrManager) (p : PeerID)
    (addrs : List (Option Multiaddr)) (ttl : Duration) (now : Time) :
    (AddAddrs ro mgr p addrs ttl now).2.Nodup := by
  by_cases ht : 0 < ttl
  · rw [AddAddrs_bcast_eq ro mgr p addrs ttl now ht]
    exact addLoop_bcast_nodup _ _ _ _ List.nodup_nil (fun _ h => by cases h)
  · unfold AddAddrs
    rw [if_pos (not_lt.1 ht)]
    exact List.nodup_nil

theorem addFires_iff_isNewFor {old : addrSlice} (hu : Uniq old) (exp : Time) (a : Multiaddr) :
    addFires exp (lastRecord old a.Bytes) = true ↔ isNewFor old exp a := by
  unfold isNewFor
  constructor
  · intro h
    cases hl : lastRecord old a.Bytes with
    | none =>
      refine Or.inl (fun r hr hra => ?_)
      exact lastRecord_none.1 hl r hr (by rw [hra])
    | some r =>
      rw [hl] at h
      have hr := lastRecord_some hl
      exact Or.inr ⟨r, hr.1, Multiaddr.eq_of_bytes hr.2, by simpa [addFires] using h⟩
  · rintro (h | ⟨r, hr, hra, hlt⟩)
    · rw [lastRecord_none_of_no_addr h]
      rfl
    · subst hra
      rw [lastRecord_of_mem hu hr]
      simp [addFires, hlt]

/-! ## Facts about the subscriber index -/

theorem take_length_perm (y : Nat) (ys : List Nat) :
    ((y :: ys).getLastD 0 :: (y :: ys).take ys.length).Perm (y :: ys) := by
  have hne : (y :: ys) ≠ [] := by simp
  have h1 : (y :: ys).take ys.length = (y :: ys).dropLast := by
    rw [List.dropLast_eq_take]
    simp
  have h2 : (y :: ys).getLastD 0 = (y :: ys).getLast hne := by
    rw [List.getLastD_cons, List.getLast_eq_getLastD]
  rw [h1, h2]
  have := List.dropLast_append_getLast hne
  exact (List.perm_append_singleton _ _).symm.trans (by rw [this])

theorem set_take_perm_eraseIdx (d : Nat) (l : List Nat) (i : Nat) (h : i < l.length) :
    ((l.set i (l.getLastD d)).take (l.length - 1)).Perm (l.eraseIdx i) := by
  induction l generalizing i d with
  | nil => simp at h
  | cons x xs ih =>
    cases i with
    | zero =>
      cases xs with
      | nil => simp
      | cons y ys =>
        simp only [List.set_cons_zero, List.length_cons, Nat.add_sub_cancel, List.take_succ_cons,
          List.eraseIdx_cons_zero, List.getLastD_cons]
        have := take_length_perm y ys
        rw [List.getLastD_cons] at this
        simpa [List.getLastD_cons] using this
    | succ i =>
      have hi : i < xs.length := by simpa using h
      cases xs with
      | nil => simp at hi
      | cons y ys =>
        have := ih x i hi
        simp only [List.set_cons_succ, List.length_cons, Nat.add_sub_cancel, List.take_succ_cons,
          List.eraseIdx_cons_succ, List.getLastD_cons] at this ⊢
        exact List.Perm.cons x this

theorem swapRemove_perm {subs : List Nat} {s : Nat} (h : s ∈ subs) :
    (swapRemove subs s).Perm (subs.erase s) := by
  unfold swapRemove
  rw [← List.eraseIdx_indexOf_eq_erase]
  exact set_take_perm_eraseIdx s subs _ (List.indexOf_lt_length.2 h)

theorem swapRemove_length (subs : List Nat) (s : Nat) :
    (swapRemove subs s).length = subs.length - 1 := by
  unfold swapRemove
  simp

theorem subsOf_set (mgr : AddrSubManager) (p q : PeerID) (l : List Nat) :
    ({ subs := mgr.subs.set p l } : AddrSubManager).subsOf q
      = if p = q then l else mgr.subsOf q := by
  unfold AddrSubManager.subsOf
  simp only [GoMap.get?_set]
  by_cases h : p = q <;> simp [h]

theorem subsOf_delete (mgr : AddrSubManager) (p q : PeerID) :
    ({ subs := mgr.subs.delete p } : AddrSubManager).subsOf q
      = if p = q then [] else mgr.subsOf q := by
  unfold AddrSubManager.subsOf
  simp only [GoMap.get?_delete]
  by_cases h : p = q <;> simp [h]

theorem removeSub_absent {mgr : AddrSubManager} {p : PeerID} {s : Nat}
    (h : s ∉ mgr.subsOf p) : mgr.removeSub p s = mgr := by
  unfold AddrSubManager.removeSub
  by_cases hlen : (mgr.subsOf p).length = 1
  · obtain ⟨x, hx⟩ := List.length_eq_one.1 hlen
    have hne : x ≠ s := fun e => h (by rw [hx, e]; exact List.mem_singleton.2 rfl)
    simp [hx, hne]
  · have hidx : ¬ (List.indexOf s (mgr.subsOf p) < (mgr.subsOf p).length) := fun hlt =>
      h (List.indexOf_lt_length.1 hlt)
    simp [hlen, hidx]

theorem removeSub_single {mgr : AddrSubManager} {p : PeerID} {s : Nat}
    (h : mgr.subsOf p = [s]) : mgr.removeSub p s = { subs := mgr.subs.delete p } := by
  unfold AddrSubManager.removeSub
  simp [h]

theorem removeSub_many {mgr : AddrSubManager} {p : PeerID} {s : Nat}
    (hs : s ∈ mgr.subsOf p) (hlen : (mgr.subsOf p).length ≠ 1) :
    mgr.removeSub p s = { subs := mgr.subs.set p (swapRemove (mgr.subsOf p) s) } := by
  unfold AddrSubManager.removeSub swapRemove
  simp [hlen, List.indexOf_lt_length.2 hs]

theorem subsOf_mem_subs {mgr : AddrSubManager} {p : PeerID} (h : mgr.subsOf p ≠ []) :
    (p, mgr.subsOf p) ∈ mgr.subs := by
  unfold AddrSubManager.subsOf at h ⊢
  cases hg : mgr.subs.get? p with
  | none => simp [hg] at h
  | some l => exact GoMap.mem_of_get?_eq_some hg

theorem register_subsOf (mgr : AddrSubManager) (p q : PeerID) (sub : Nat) :
    (mgr.register p sub).subsOf q = if p = q then mgr.subsOf p ++ [sub] else mgr.subsOf q := by
  unfold AddrSubManager.register
  cases hg : mgr.subs.get? p with
  | none =>
    simp only [hg]
    rw [subsOf_set]
    by_cases h : p = q
    · subst h
      simp [AddrSubManager.subsOf, hg]
    · simp [h]
  | some l =>
    simp only [hg]
    rw [subsOf_set]
    by_cases h : p = q
    · subst h
      simp [AddrSubManager.subsOf, hg]
    · simp [h]

theorem register_mem {mgr : AddrSubManager} {p : PeerID} {sub : Nat} {kv : PeerID × List Nat}
    (h : kv ∈ (mgr.register p sub).subs) : kv = (p, mgr.subsOf p ++ [sub]) ∨ kv ∈ mgr.subs := by
  unfold AddrSubManager.register at h
  cases hg : mgr.subs.get? p with
  | none =>
    simp only [hg] at h
    rcases GoMap.mem_set h with h1 | h1
    · exact Or.inl (by simp [h1, AddrSubManager.subsOf, hg])
    · exact Or.inr h1
  | some l =>
    simp only [hg] at h
    rcases GoMap.mem_set h with h1 | h1
    · exact Or.inl (by simp [h1, AddrSubManager.subsOf, hg])
    · exact Or.inr h1

theorem removeSub_mem {mgr : AddrSubManager} {p : PeerID} {s : Nat} {kv : PeerID × List Nat}
    (h : kv ∈ (mgr.removeSub p s).subs) :
    kv ∈ mgr.subs
      ∨ (kv = (p, swapRemove (mgr.subsOf p) s) ∧ s ∈ mgr.subsOf p
          ∧ (mgr.subsOf p).length ≠ 1) := by
  by_cases hs : s ∈ mgr.subsOf p
  · by_cases hlen : (mgr.subsOf p).length = 1
    · obtain ⟨x, hx⟩ := List.length_eq_one.1 hlen
      have hxs : x = s := by
        rw [hx] at hs
        exact (List.mem_singleton.1 hs).symm
      rw [hxs] at hx
      rw [removeSub_single hx] at h
      exact Or.inl (GoMap.mem_delete h)
    · rw [removeSub_many hs hlen] at h
      rcases GoMap.mem_set h with h1 | h1
      · exact Or.inr ⟨h1, hs, hlen⟩
      · exact Or.inl h1
  · rw [removeSub_absent hs] at h
    exact Or.inl h

/-! ## The claims -/

/-- C1: at every instant `t`, `Addrs(p)` returns exactly the addresses of the records stored
for `p` with `t ≤ Expires` (in slice order, so a record is returned at the instant of its
expiry and dropped at any later one); the result is empty when `p` has no entry and for the
zero-value manager. -/
theorem Addrs_returns_unexpired (mgr : AddrManager) (p : PeerID) (t : Time) :
    (Addrs mgr p t).2
        = ((mgr.entry p).filter (fun r => decide (t ≤ r.Expires))).map (fun r => r.Addr)
      ∧ (∀ a, a ∈ (Addrs mgr p t).2 ↔ ∃ r ∈ mgr.entry p, r.Addr = a ∧ t ≤ r.Expires)
      ∧ (mgr.addrsMap.get? p = none → (Addrs mgr p t).2 = [])
      ∧ (Addrs AddrManager.zero p t).2 = [] := by
  have h1 := Addrs_result mgr p t
  rw [notExpiredBy_eq] at h1
  refine ⟨h1, Addrs_mem mgr p t, ?_, rfl⟩
  intro hnone
  rw [h1]
  simp [AddrManager.entry, hnone]

/-- Witness for C1 on a store with one expired record, one record expiring exactly at the
instant of the call, and a peer without entry. -/
theorem Addrs_returns_unexpired_witness :
    (Addrs ⟨some [(1, [⟨⟨[1]⟩, 5, 5⟩, ⟨⟨[2]⟩, 5, 4⟩])], none⟩ 1 5).2 = [⟨[1]⟩]
      ∧ (Addrs ⟨some [(1, [⟨⟨[1]⟩, 5, 5⟩, ⟨⟨[2]⟩, 5, 4⟩])], none⟩ 2 5).2 = [] :=
  ⟨(Addrs_returns_unexpired ⟨some [(1, [⟨⟨[1]⟩, 5, 5⟩, ⟨⟨[2]⟩, 5, 4⟩])], none⟩ 1 5).1.trans
      (by decide),
   (Addrs_returns_unexpired ⟨some [(1, [⟨⟨[1]⟩, 5, 5⟩, ⟨⟨[2]⟩, 5, 4⟩])], none⟩ 2 5).2.2.1
      (by decide)⟩

/-- C2: `AddAddrs(p, addrs, ttl)` at instant `now` follows the merge rule.  With `ttl ≤ 0`
the manager is unchanged (and nothing is broadcast).  With `ttl > 0` and `exp = now + ttl`, for a non-nil `a` of `addrs`:
if `p` had no record for `a`, the only record for `a` is `(a, ttl, exp)`; if `p` had a record
for `a` with `Expires < exp`, the only record for `a` is `(a, ttl, exp)`; if `p` had a record
for `a` with `Expires ≥ exp`, the only record for `a` is that old record; and the records whose
address is not in `addrs` are exactly the old ones. -/
theorem AddAddrs_merge_rule (ro : RangeOrder) (mgr : AddrManager) (p : PeerID)
    (addrs : List (Option Multiaddr)) (ttl : Duration) (now : Time)
    (hu : Uniq (mgr.entry p)) :
    (ttl ≤ 0 → AddAddrs ro mgr p addrs ttl now = (mgr, []))
      ∧ (0 < ttl →
          (∀ a, some a ∈ addrs → (∀ r0 ∈ mgr.entry p, r0.Addr ≠ a) →
              ∀ r, r.Addr = a →
                (r ∈ (AddAddrs ro mgr p addrs ttl now).1.entry p
                  ↔ r = { Addr := a, TTL := ttl, Expires := now + ttl }))
          ∧ (∀ a, some a ∈ addrs → ∀ r0 ∈ mgr.entry p, r0.Addr = a → r0.Expires < now + ttl →
              ∀ r, r.Addr = a →
                (r ∈ (AddAddrs ro mgr p addrs ttl now).1.entry p
                  ↔ r = { Addr := a, TTL := ttl, Expires := now + ttl }))
          ∧ (∀ a, some a ∈ addrs → ∀ r0 ∈ mgr.entry p, r0.Addr = a → now + ttl ≤ r0.Expires →
              ∀ r, r.Addr = a →
                (r ∈ (AddAddrs ro mgr p addrs ttl now).1.entry p ↔ r = r0))
          ∧ (∀ r, some r.Addr ∉ addrs →
              (r ∈ (AddAddrs ro mgr p addrs ttl now).1.entry p ↔ r ∈ mgr.entry p))) := by
  refine ⟨fun ht => ?_, fun ht => ⟨?_, ?_, ?_, ?_⟩⟩
  · unfold AddAddrs
    rw [if_pos ht]
  · intro a ha hno r hr
    subst hr
    rw [AddAddrs_mem ro mgr p addrs ttl now ht, addKey_bytes, if_pos ha,
      lastRecord_none_of_no_addr hno]
    simp only [addMerge, Option.some.injEq]
    exact eq_comm
  · intro a ha r0 hr0 hra hlt r hr
    subst hr
    have hl : lastRecord (mgr.entry p) r.Addr.Bytes = some r0 := by
      rw [← hra]
      exact lastRecord_of_mem hu hr0
    rw [AddAddrs_mem ro mgr p addrs ttl now ht, addKey_bytes, if_pos ha, hl]
    simp only [addMerge, gt_iff_lt, hlt, if_true, Option.some.injEq]
    exact eq_comm
  · intro a ha r0 hr0 hra hge r hr
    subst hr
    have hl : lastRecord (mgr.entry p) r.Addr.Bytes = some r0 := by
      rw [← hra]
      exact lastRecord_of_mem hu hr0
    rw [AddAddrs_mem ro mgr p addrs ttl now ht, addKey_bytes, if_pos ha, hl]
    simp only [addMerge, gt_iff_lt, not_lt.2 hge, if_false, Option.some.injEq]
    exact eq_comm
  · intro r hr
    rw [AddAddrs_mem ro mgr p addrs ttl now ht, addKey_bytes, if_neg hr, lastRecord_iff hu]
    simp

/-- Witness for C2: a store holding `(A, 10, 10)` and `(B, 10, 100)` for peer 1 receives
`AddAddrs(1, [A, nil, B, C], 20)` at instant 5. -/
theorem AddAddrs_merge_rule_witness :
    Uniq ((⟨some [(1, [⟨⟨[1]⟩, 10, 10⟩, ⟨⟨[2]⟩, 10, 100⟩])], none⟩ : AddrManager).entry 1)
      ∧ ((⟨⟨[3]⟩, 20, 25⟩ : expiringAddr)
          ∈ (AddAddrs RangeOrder.insertion ⟨some [(1, [⟨⟨[1]⟩, 10, 10⟩, ⟨⟨[2]⟩, 10, 100⟩])], none⟩
              1 [some ⟨[1]⟩, none, some ⟨[2]⟩, some ⟨[3]⟩] 20 5).1.entry 1) :=
  ⟨by decide,
   (((AddAddrs_merge_rule RangeOrder.insertion
        ⟨some [(1, [⟨⟨[1]⟩, 10, 10⟩, ⟨⟨[2]⟩, 10, 100⟩])], none⟩ 1
        [some ⟨[1]⟩, none, some ⟨[2]⟩, some ⟨[3]⟩] 20 5 (by decide)).2 (by decide)).1
      ⟨[3]⟩ (by decide) (by decide) _ rfl).2 rfl⟩

/-- C3: `SetAddrs(p, addrs, ttl)` at instant `now` is authoritative.  For a non-nil `a` of
`addrs`: with `ttl > 0` the only record for `a` afterwards is `(a, ttl, now + ttl)`, whatever
was stored before; with `ttl ≤ 0` no record for `a` remains.  The records whose address is not
in `addrs` are exactly the old ones.  Hence after `SetAddrs(p, [a], ttl)` with `ttl > 0`,
`Addrs(p)` at any instant later than `now + ttl` does not contain `a`. -/
theorem SetAddrs_authoritative (ro : RangeOrder) (mgr : AddrManager) (p : PeerID)
    (addrs : List (Option Multiaddr)) (ttl : Duration) (now : Time)
    (hu : Uniq (mgr.entry p)) :
    (0 < ttl → ∀ a, some a ∈ addrs → ∀ r, r.Addr = a →
        (r ∈ (SetAddrs ro mgr p addrs ttl now).1.entry p
          ↔ r = { Addr := a, TTL := ttl, Expires := now + ttl }))
      ∧ (ttl ≤ 0 → ∀ a, some a ∈ addrs →
          ∀ r ∈ (SetAddrs ro mgr p addrs ttl now).1.entry p, r.Addr ≠ a)
      ∧ (∀ r, some r.Addr ∉ addrs →
          (r ∈ (SetAddrs ro mgr p addrs ttl now).1.entry p ↔ r ∈ mgr.entry p))
      ∧ (0 < ttl → ∀ a t, now + ttl < t →
          a ∉ (Addrs (SetAddrs ro mgr p [some a] ttl now).1 p t).2) := by
  refine ⟨?_, ?_, ?_, ?_⟩
  · intro ht a ha r hr
    subst hr
    rw [SetAddrs_mem, setKey_bytes, if_pos ha]
    simp only [setMerge, gt_iff_lt, ht, if_true, Option.some.injEq]
    exact eq_comm
  · intro ht a ha r hr hra
    subst hra
    rw [SetAddrs_mem, setKey_bytes, if_pos ha] at hr
    simp [setMerge, not_lt.2 ht] at hr
  · intro r hr
    rw [SetAddrs_mem, setKey_bytes, if_neg hr, lastRecord_iff hu]
    simp
  · intro ht a t hlt hmem
    obtain ⟨r, hr, hra, hexp⟩ := (Addrs_mem _ p t a).1 hmem
    subst hra
    rw [SetAddrs_mem, setKey_bytes, if_pos (List.mem_singleton.2 rfl)] at hr
    simp only [setMerge, gt_iff_lt, ht, if_true, Option.some.injEq] at hr
    rw [← hr] at hexp
    exact absurd hexp (not_le.2 hlt)

/-- Witness for C3: peer 1 holds `(A, 100, 100)` and `(B, 10, 10)`; `SetAddrs(1, [A], 3)` at
instant 0 shrinks the record of `A`, which is gone from `Addrs(1)` at instant 4. -/
theorem SetAddrs_authoritative_witness :
    Uniq ((⟨some [(1, [⟨⟨[1]⟩, 100, 100⟩, ⟨⟨[2]⟩, 10, 10⟩])], none⟩ : AddrManager).entry 1)
      ∧ (⟨[1]⟩ : Multiaddr) ∉ (Addrs (SetAddrs RangeOrder.insertion
            ⟨some [(1, [⟨⟨[1]⟩, 100, 100⟩, ⟨⟨[2]⟩, 10, 10⟩])], none⟩ 1 [some ⟨[1]⟩] 3 0).1 1 4).2 :=
  ⟨by decide,
   (SetAddrs_authoritative RangeOrder.insertion
      ⟨some [(1, [⟨⟨[1]⟩, 100, 100⟩, ⟨⟨[2]⟩, 10, 10⟩])], none⟩ 1 [some ⟨[1]⟩] 3 0
      (by decide)).2.2.2 (by decide) ⟨[1]⟩ 4 (by decide)⟩

/-- C4: `UpdateAddrs(p, oldTTL, newTTL)` at instant `now` rewrites, position by position,
every record of `p` whose TTL equals `oldTTL` to TTL `newTTL` and expiry `now + newTTL`, leaves
every other record unchanged and keeps the addresses; when `p` has no entry, and for the
zero-value manager, the manager is unchanged. -/
theorem UpdateAddrs_rewrites_matching (mgr : AddrManager) (p : PeerID)
    (oldTTL newTTL : Duration) (now : Time) :
    List.Forall₂
        (fun r r' : expiringAddr =>
          r'.Addr = r.Addr
            ∧ (r.TTL = oldTTL → r'.TTL = newTTL ∧ r'.Expires = now + newTTL)
            ∧ (r.TTL ≠ oldTTL → r' = r))
        (mgr.entry p) ((UpdateAddrs mgr p oldTTL newTTL now).entry p)
      ∧ ((UpdateAddrs mgr p oldTTL newTTL now).entry p).map (fun r => r.Addr)
          = (mgr.entry p).map (fun r => r.Addr)
      ∧ (mgr.addrsMap.get? p = none → UpdateAddrs mgr p oldTTL newTTL now = mgr)
      ∧ UpdateAddrs AddrManager.zero p oldTTL newTTL now = AddrManager.zero := by
  refine ⟨?_, ?_, UpdateAddrs_no_entry mgr p oldTTL newTTL now, rfl⟩
  · rw [UpdateAddrs_entry, List.forall₂_map_right_iff, List.forall₂_same]
    intro r _
    refine ⟨updateRecord_addr _ _ _ r, fun h => ?_, fun h => ?_⟩
    · simp [updateRecord, h]
    · simp [updateRecord, Ne.symm h]
  · rw [UpdateAddrs_entry, List.map_map]
    exact List.map_congr_left (fun r _ => updateRecord_addr _ _ _ r)

/-- Witness for C4: peer 1 holds `(A, 60, 60)` and `(B, 1, 1)`; `UpdateAddrs(1, 60, 2)` at
instant 7 rewrites the first record only, and is a no-op for peer 2, which has no entry. -/
theorem UpdateAddrs_rewrites_matching_witness :
    (UpdateAddrs ⟨some [(1, [⟨⟨[1]⟩, 60, 60⟩, ⟨⟨[2]⟩, 1, 1⟩])], none⟩ 1 60 2 7).entry 1
        = [⟨⟨[1]⟩, 2, 9⟩, ⟨⟨[2]⟩, 1, 1⟩]
      ∧ UpdateAddrs ⟨some [(1, [⟨⟨[1]⟩, 60, 60⟩, ⟨⟨[2]⟩, 1, 1⟩])], none⟩ 2 60 2 7
        = ⟨some [(1, [⟨⟨[1]⟩, 60, 60⟩, ⟨⟨[2]⟩, 1, 1⟩])], none⟩ :=
  ⟨by decide,
   (UpdateAddrs_rewrites_matching ⟨some [(1, [⟨⟨[1]⟩, 60, 60⟩, ⟨⟨[2]⟩, 1, 1⟩])], none⟩
      2 60 2 7).2.2.1 (by decide)⟩

/-- C5: in every manager state reachable from the zero-value manager by `AddAddrs`,
`SetAddrs`, `UpdateAddrs`, `Addrs` and `ClearAddrs` calls (any arguments, nil and repeated
addresses included), the slice stored for any peer has no two records, at different positions,
with the same address bytes. -/
theorem reachable_entries_unique (mgr : AddrManager) (h : Reachable mgr) (p : PeerID)
    (s : addrSlice) (hs : mgr.addrsMap.get? p = some s) :
    Uniq s
      ∧ ∀ i j : Fin s.length, i ≠ j → (s.get i).Addr.Bytes ≠ (s.get j).Addr.Bytes := by
  have hu : Uniq s := h.storeUniq _ (GoMap.mem_of_get?_eq_some hs)
  refine ⟨hu, fun i j hij hb => hij ?_⟩
  have hinj := List.nodup_iff_injective_get.1 hu
  have hlen : (s.map (fun r => r.Addr.Bytes)).length = s.length := List.length_map _ _
  have := @hinj ⟨i.1, by rw [hlen]; exact i.2⟩ ⟨j.1, by rw [hlen]; exact j.2⟩
    (by simpa using hb)
  exact Fin.ext (by simpa using this)

/-- Witness for C5: the state after `AddAddrs(1, [A, nil, A, B], 10)` at instant 0 followed by
`SetAddrs(1, [B, B], 5)` at instant 1. -/
theorem reachable_entries_unique_witness :
    Reachable (SetAddrs RangeOrder.insertion
        (AddAddrs RangeOrder.insertion AddrManager.zero 1
          [some ⟨[1]⟩, none, some ⟨[1]⟩, some ⟨[2]⟩] 10 0).1
        1 [some ⟨[2]⟩, some ⟨[2]⟩] 5 1).1
      ∧ (SetAddrs RangeOrder.insertion
          (AddAddrs RangeOrder.insertion AddrManager.zero 1
            [some ⟨[1]⟩, none, some ⟨[1]⟩, some ⟨[2]⟩] 10 0).1
          1 [some ⟨[2]⟩, some ⟨[2]⟩] 5 1).1.addrsMap.get? 1
          = some [⟨⟨[1]⟩, 10, 10⟩, ⟨⟨[2]⟩, 5, 6⟩]
      ∧ Uniq [(⟨⟨[1]⟩, 10, 10⟩ : expiringAddr), ⟨⟨[2]⟩, 5, 6⟩] :=
  ⟨Reachable.setAddrs _ _ _ _ _ _ (Reachable.addAddrs _ _ _ _ _ _ Reachable.zero),
   by decide,
   (reachable_entries_unique
    (SetAddrs RangeOrder.insertion
      (AddAddrs RangeOrder.insertion AddrManager.zero 1
        [some ⟨[1]⟩, none, some ⟨[1]⟩, some ⟨[2]⟩] 10 0).1
      1 [some ⟨[2]⟩, some ⟨[2]⟩] 5 1).1
    (Reachable.setAddrs _ _ _ _ _ _ (Reachable.addAddrs _ _ _ _ _ _ Reachable.zero))
    1 [⟨⟨[1]⟩, 10, 10⟩, ⟨⟨[2]⟩, 5, 6⟩] (by decide)).1⟩

/-- C6: for `ttl > 0` and instants `t1 < t2`, running `AddAddrs(p, A, ttl)` at `t1` and again
at `t2` leaves, for every peer, the same set of records (and the same peers with an entry) as
running it once at `t2` on the original store, whatever the map iteration orders. -/
theorem AddAddrs_twice_eq_once (ro1 ro2 ro3 : RangeOrder) (mgr : AddrManager) (p : PeerID)
    (A : List (Option Multiaddr)) (ttl : Duration) (t1 t2 : Time) (ht : 0 < ttl)
    (h12 : t1 < t2) (q : PeerID) :
    (∀ r, r ∈ (AddAddrs ro2 (AddAddrs ro1 mgr p A ttl t1).1 p A ttl t2).1.entry q
        ↔ r ∈ (AddAddrs ro3 mgr p A ttl t2).1.entry q)
      ∧ ((AddAddrs ro2 (AddAddrs ro1 mgr p A ttl t1).1 p A ttl t2).1.addrsMap.get? q).isSome
          = ((AddAddrs ro3 mgr p A ttl t2).1.addrsMap.get? q).isSome := by
  by_cases hq : p = q
  · subst hq
    refine ⟨fun r => ?_, ?_⟩
    · rw [AddAddrs_mem ro2 _ p A ttl t2 ht, AddAddrs_mem ro3 mgr p A ttl t2 ht,
        AddAddrs_lastRecord ro1 mgr p A ttl t1 ht,
        addKey_addKey_le A ttl (add_le_add_right (le_of_lt h12) ttl)]
    · rw [AddAddrs_get?_self ro2 _ p A ttl t2 ht, AddAddrs_get?_self ro3 mgr p A ttl t2 ht]
  · refine ⟨fun r => ?_, ?_⟩
    · rw [AddAddrs_entry_other ro2 _ p q A ttl t2 hq, AddAddrs_entry_other ro1 mgr p q A ttl t1 hq,
        AddAddrs_entry_other ro3 mgr p q A ttl t2 hq]
    · rw [AddAddrs_get?_other ro2 _ p q A ttl t2 hq, AddAddrs_get?_other ro1 mgr p q A ttl t1 hq,
        AddAddrs_get?_other ro3 mgr p q A ttl t2 hq]

/-- Witness for C6: peer 1 holds `(A, 100, 100)` and `(B, 10, 10)`; `AddAddrs(1, [A, B, C], 20)`
at instants 0 and 3, compared with one call at instant 3. -/
theorem AddAddrs_twice_eq_once_witness :
    (0 : Duration) < 20 ∧ (0 : Time) < 3
      ∧ ((⟨⟨[2]⟩, 20, 23⟩ : expiringAddr)
          ∈ (AddAddrs RangeOrder.insertion
              (AddAddrs RangeOrder.reversed
                ⟨some [(1, [⟨⟨[1]⟩, 100, 100⟩, ⟨⟨[2]⟩, 10, 10⟩])], none⟩ 1
                [some ⟨[1]⟩, some ⟨[2]⟩, some ⟨[3]⟩] 20 0).1
              1 [some ⟨[1]⟩, some ⟨[2]⟩, some ⟨[3]⟩] 20 3).1.entry 1) :=
  ⟨by decide, by decide,
   ((AddAddrs_twice_eq_once RangeOrder.reversed RangeOrder.insertion RangeOrder.insertion
      ⟨some [(1, [⟨⟨[1]⟩, 100, 100⟩, ⟨⟨[2]⟩, 10, 10⟩])], none⟩ 1
      [some ⟨[1]⟩, some ⟨[2]⟩, some ⟨[3]⟩] 20 0 3 (by decide) (by decide) 1).1 _).2
    (by decide)⟩

/-- C7, as stated, fails: on the zero-value manager, `AddAddrs(1, [A], 10)` at instant 0
stores `(A, 10, 10)`; the same call at instant 1, inside the TTL window, replaces it with
`(A, 10, 11)` and broadcasts `A` again. -/
theorem AddAddrs_repeat_in_window_counterexample :
    (0 : Duration) < 10 ∧ (0 : Time) ≤ 1 ∧ (1 : Time) < 0 + 10
      ∧ (AddAddrs RangeOrder.insertion AddrManager.zero 1 [some ⟨[1]⟩] 10 0).1.entry 1
          = [⟨⟨[1]⟩, 10, 10⟩]
      ∧ (AddAddrs RangeOrder.insertion
            (AddAddrs RangeOrder.insertion AddrManager.zero 1 [some ⟨[1]⟩] 10 0).1
            1 [some ⟨[1]⟩] 10 1).1.entry 1 = [⟨⟨[1]⟩, 10, 11⟩]
      ∧ (AddAddrs RangeOrder.insertion
            (AddAddrs RangeOrder.insertion AddrManager.zero 1 [some ⟨[1]⟩] 10 0).1
            1 [some ⟨[1]⟩] 10 1).2 = [⟨[1]⟩] := by
  decide

/-- C7, amended: for `ttl > 0`, when `AddAddrs(p, A, ttl)` is called at `t1` and again with the
same arguments at `t2`, the second call creates no duplicate record and keeps the set of
addresses of `p`; it keeps every record whose expiry is at least `t2 + ttl` or whose address
is not in `A`; it replaces every record of an address of `A` that expires before `t2 + ttl` by
`(a, ttl, t2 + ttl)` and broadcasts that address again; it broadcasts nothing else; and when
`t2 = t1` it changes no record and broadcasts nothing. -/
theorem AddAddrs_repeat_refreshes (ro1 ro2 : RangeOrder) (mgr : AddrManager) (p : PeerID)
    (A : List (Option Multiaddr)) (ttl : Duration) (t1 t2 : Time) (ht : 0 < ttl) :
    Uniq ((AddAddrs ro2 (AddAddrs ro1 mgr p A ttl t1).1 p A ttl t2).1.entry p)
      ∧ (∀ a, (∃ r ∈ (AddAddrs ro2 (AddAddrs ro1 mgr p A ttl t1).1 p A ttl t2).1.entry p,
                r.Addr = a)
            ↔ ∃ r ∈ (AddAddrs ro1 mgr p A ttl t1).1.entry p, r.Addr = a)
      ∧ (∀ r ∈ (AddAddrs ro1 mgr p A ttl t1).1.entry p,
          (t2 + ttl ≤ r.Expires ∨ some r.Addr ∉ A) →
            r ∈ (AddAddrs ro2 (AddAddrs ro1 mgr p A ttl t1).1 p A ttl t2).1.entry p)
      ∧ (∀ r ∈ (AddAddrs ro1 mgr p A ttl t1).1.entry p,
          some r.Addr ∈ A → r.Expires < t2 + ttl →
            ({ Addr := r.Addr, TTL := ttl, Expires := t2 + ttl } : expiringAddr)
                ∈ (AddAddrs ro2 (AddAddrs ro1 mgr p A ttl t1).1 p A ttl t2).1.entry p
              ∧ r ∉ (AddAddrs ro2 (AddAddrs ro1 mgr p A ttl t1).1 p A ttl t2).1.entry p
              ∧ r.Addr ∈ (AddAddrs ro2 (AddAddrs ro1 mgr p A ttl t1).1 p A ttl t2).2)
      ∧ (∀ a ∈ (AddAddrs ro2 (AddAddrs ro1 mgr p A ttl t1).1 p A ttl t2).2,
          some a ∈ A
            ∧ ∃ r ∈ (AddAddrs ro1 mgr p A ttl t1).1.entry p, r.Addr = a ∧ r.Expires < t2 + ttl)
      ∧ (t2 = t1 →
          (AddAddrs ro2 (AddAddrs ro1 mgr p A ttl t1).1 p A ttl t2).2 = []
            ∧ ∀ r, r ∈ (AddAddrs ro2 (AddAddrs ro1 mgr p A ttl t1).1 p A ttl t2).1.entry p
                ↔ r ∈ (AddAddrs ro1 mgr p A ttl t1).1.entry p) := by
  have hu1 : Uniq ((AddAddrs ro1 mgr p A ttl t1).1.entry p) := AddAddrs_uniq ro1 mgr p A ttl t1 ht
  have hl1 := AddAddrs_lastRecord ro1 mgr p A ttl t1 ht
  refine ⟨AddAddrs_uniq ro2 _ p A ttl t2 ht, ?_, ?_, ?_, ?_, ?_⟩
  · intro a
    rw [exists_addr_iff, exists_addr_iff, AddAddrs_lastRecord ro2 _ p A ttl t2 ht, hl1,
      addKey_bytes, addKey_bytes]
    by_cases ha : some a ∈ A
    · simp only [ha, if_true]
      exact ⟨fun _ => addMerge_ne_none _ _ _ _, fun _ => addMerge_ne_none _ _ _ _⟩
    · simp only [ha, if_false]
  · intro r hr hkeep
    rw [AddAddrs_mem ro2 _ p A ttl t2 ht, lastRecord_of_mem hu1 hr, addKey_bytes]
    by_cases ha : some r.Addr ∈ A
    · rcases hkeep with hk | hk
      · simp [ha, addMerge, not_lt.2 hk]
      · exact absurd ha hk
    · simp [ha]
  · intro r hr ha hlt
    refine ⟨?_, ?_, ?_⟩
    · rw [AddAddrs_mem ro2 _ p A ttl t2 ht]
      show addKey A ttl (t2 + ttl) r.Addr.Bytes
        (lastRecord ((AddAddrs ro1 mgr p A ttl t1).1.entry p) r.Addr.Bytes) = _
      rw [lastRecord_of_mem hu1 hr, addKey_bytes, if_pos ha]
      simp [addMerge, hlt]
    · rw [AddAddrs_mem ro2 _ p A ttl t2 ht, lastRecord_of_mem hu1 hr, addKey_bytes, if_pos ha]
      simp only [addMerge, gt_iff_lt, hlt, if_true, Option.some.injEq]
      intro h
      rw [← h] at hlt
      exact lt_irrefl _ hlt
    · rw [AddAddrs_bcast_mem ro2 _ p A ttl t2 ht, lastRecord_of_mem hu1 hr]
      exact ⟨ha, by simp [addFires, hlt]⟩
  · intro a ha
    rw [AddAddrs_bcast_mem ro2 _ p A ttl t2 ht] at ha
    refine ⟨ha.1, ?_⟩
    cases hl : lastRecord ((AddAddrs ro1 mgr p A ttl t1).1.entry p) a.Bytes with
    | none =>
      rw [hl1, addKey_bytes, if_pos ha.1] at hl
      exact absurd hl (addMerge_ne_none _ _ _ _)
    | some x =>
      have hx := lastRecord_some hl
      refine ⟨x, hx.1, Multiaddr.eq_of_bytes hx.2, ?_⟩
      have hf := ha.2
      rw [hl] at hf
      simpa [addFires] using hf
  · intro h21
    subst h21
    refine ⟨List.eq_nil_iff_forall_not_mem.2 (fun a ha => ?_), fun r => ?_⟩
    · rw [AddAddrs_bcast_mem ro2 _ p A ttl t2 ht, hl1, addKey_bytes] at ha
      rw [if_pos ha.1, addFires_addMerge] at ha
      exact Bool.false_ne_true ha.2
    · rw [AddAddrs_mem ro2 _ p A ttl t2 ht, hl1, addKey_addKey_le A ttl (le_refl _), ← hl1,
        lastRecord_iff hu1]
      simp

/-- Witness for C7 (amended): peer 1 holds `(B, 100, 100)`; `AddAddrs(1, [A, B], 10)` at
instant 0 and again at instant 1 broadcasts `A` a second time. -/
theorem AddAddrs_repeat_refreshes_witness :
    (0 : Duration) < 10
      ∧ (⟨[1]⟩ : Multiaddr) ∈ (AddAddrs RangeOrder.insertion
          (AddAddrs RangeOrder.insertion ⟨some [(1, [⟨⟨[2]⟩, 100, 100⟩])], none⟩ 1
            [some ⟨[1]⟩, some ⟨[2]⟩] 10 0).1 1 [some ⟨[1]⟩, some ⟨[2]⟩] 10 1).2 :=
  ⟨by decide,
   ((AddAddrs_repeat_refreshes RangeOrder.insertion RangeOrder.insertion
      ⟨some [(1, [⟨⟨[2]⟩, 100, 100⟩])], none⟩ 1 [some ⟨[1]⟩, some ⟨[2]⟩] 10 0 1
      (by decide)).2.2.2.1 ⟨⟨[1]⟩, 10, 10⟩ (by decide) (by decide) (by decide)).2.2⟩

/-- C8, evaluated on the code: `AddAddrs(1, [A], 100)` at instant 0 stores `(A, 100, 100)`;
`AddAddrs(1, [A], 50)` at instant 60, with a shorter ttl than the stored one, replaces that
record by `(A, 50, 110)` and broadcasts `A`: the stored TTL shrinks from 100 to 50. -/
theorem AddAddrs_shorter_ttl_replaces :
    (AddAddrs RangeOrder.insertion AddrManager.zero 1 [some ⟨[1]⟩] 100 0).1.entry 1
        = [⟨⟨[1]⟩, 100, 100⟩]
      ∧ (50 : Duration) < 100
      ∧ AddAddrs RangeOrder.insertion
            (AddAddrs RangeOrder.insertion AddrManager.zero 1 [some ⟨[1]⟩] 100 0).1
            1 [some ⟨[1]⟩] 50 60
          = (⟨some [(1, [⟨⟨[1]⟩, 50, 110⟩])], some NewAddrSubManager⟩, [⟨[1]⟩]) := by
  decide

/-- C9: `AddAddrs` only extends.  Every address with a record under `p` before the call has
one afterwards, and the expiry of any record of that address after the call is at least the
expiry before; hence, at every instant `t`, every address returned by `Addrs(p)` before the
call is returned by `Addrs(p)` after it. -/
theorem AddAddrs_only_extends (ro : RangeOrder) (mgr : AddrManager) (p : PeerID)
    (addrs : List (Option Multiaddr)) (ttl : Duration) (now : Time)
    (hu : Uniq (mgr.entry p)) :
    (∀ r ∈ mgr.entry p,
        (∃ r' ∈ (AddAddrs ro mgr p addrs ttl now).1.entry p, r'.Addr = r.Addr)
          ∧ ∀ r' ∈ (AddAddrs ro mgr p addrs ttl now).1.entry p,
              r'.Addr = r.Addr → r.Expires ≤ r'.Expires)
      ∧ (∀ t a, a ∈ (Addrs mgr p t).2 → a ∈ (Addrs (AddAddrs ro mgr p addrs ttl now).1 p t).2) := by
  have key : ∀ r ∈ mgr.entry p,
      (∃ r' ∈ (AddAddrs ro mgr p addrs ttl now).1.entry p, r'.Addr = r.Addr)
        ∧ ∀ r' ∈ (AddAddrs ro mgr p addrs ttl now).1.entry p,
            r'.Addr = r.Addr → r.Expires ≤ r'.Expires := by
    intro r hr
    by_cases ht : ttl ≤ 0
    · have hsame : (AddAddrs ro mgr p addrs ttl now).1 = mgr := by
        unfold AddAddrs
        rw [if_pos ht]
      rw [hsame]
      refine ⟨⟨r, hr, rfl⟩, fun r' hr' h => ?_⟩
      rw [hu.eq_of_addr hr hr' h]
    · have ht' : 0 < ttl := not_le.1 ht
      have hl := lastRecord_of_mem hu hr
      have hmem : ∀ r' : expiringAddr, r'.Addr = r.Addr →
          (r' ∈ (AddAddrs ro mgr p addrs ttl now).1.entry p
            ↔ addKey addrs ttl (now + ttl) r.Addr.Bytes (some r) = some r') := by
        intro r' h
        rw [AddAddrs_mem ro mgr p addrs ttl now ht', h, hl]
      constructor
      · cases hk : addKey addrs ttl (now + ttl) r.Addr.Bytes (some r) with
        | none =>
          rw [addKey_bytes] at hk
          by_cases ha : some r.Addr ∈ addrs
          · rw [if_pos ha] at hk
            exact absurd hk (addMerge_ne_none _ _ _ _)
          · rw [if_neg ha] at hk
            cases hk
        | some x =>
          have hx : x.Addr = r.Addr := by
            rw [addKey_bytes] at hk
            by_cases ha : some r.Addr ∈ addrs
            · rw [if_pos ha] at hk
              by_cases he : now + ttl > r.Expires
              · simp only [addMerge, he, if_true, Option.some.injEq] at hk
                rw [← hk]
              · simp only [addMerge, he, if_false, Option.some.injEq] at hk
                rw [← hk]
            · rw [if_neg ha] at hk
              rw [← Option.some.inj hk]
          exact ⟨x, (hmem x hx).2 hk, hx⟩
      · intro r' hr' h
        have hk := (hmem r' h).1 hr'
        rw [addKey_bytes] at hk
        by_cases ha : some r.Addr ∈ addrs
        · rw [if_pos ha] at hk
          by_cases he : now + ttl > r.Expires
          · simp only [addMerge, he, if_true, Option.some.injEq] at hk
            rw [← hk]
            exact le_of_lt he
          · simp only [addMerge, he, if_false, Option.some.injEq] at hk
            rw [← hk]
        · rw [if_neg ha] at hk
          rw [← Option.some.inj hk]
  refine ⟨key, fun t a ha => ?_⟩
  rw [Addrs_mem] at ha ⊢
  obtain ⟨r, hr, hra, hexp⟩ := ha
  obtain ⟨⟨r', hr', hra'⟩, hle⟩ := key r hr
  exact ⟨r', hr', hra'.trans hra, le_trans hexp (hle r' hr' hra')⟩

/-- Witness for C9: peer 1 holds `(A, 100, 100)` and `(B, 10, 10)`; after
`AddAddrs(1, [A, B], 20)` at instant 5, `Addrs(1)` at instant 50 still returns `A`. -/
theorem AddAddrs_only_extends_witness :
    Uniq ((⟨some [(1, [⟨⟨[1]⟩, 100, 100⟩, ⟨⟨[2]⟩, 10, 10⟩])], none⟩ : AddrManager).entry 1)
      ∧ (⟨[1]⟩ : Multiaddr) ∈ (Addrs (AddAddrs RangeOrder.insertion
            ⟨some [(1, [⟨⟨[1]⟩, 100, 100⟩, ⟨⟨[2]⟩, 10, 10⟩])], none⟩ 1
            [some ⟨[1]⟩, some ⟨[2]⟩] 20 5).1 1 50).2 :=
  ⟨by decide,
   (AddAddrs_only_extends RangeOrder.insertion
      ⟨some [(1, [⟨⟨[1]⟩, 100, 100⟩, ⟨⟨[2]⟩, 10, 10⟩])], none⟩ 1
      [some ⟨[1]⟩, some ⟨[2]⟩] 20 5 (by decide)).2 50 ⟨[1]⟩ (by decide)⟩

/-- C10: after `ClearAddrs(p)` the entry of `p` is gone; `Addrs(p)` then returns nothing at any
instant and leaves the manager as it is (so it stays empty across reads); and a following
`AddAddrs(p, A, ttl)` with `ttl > 0` at instant `now` makes `Addrs(p)` at `now` return exactly
the non-nil addresses of `A`, each once. -/
theorem ClearAddrs_then_add (ro : RangeOrder) (mgr : AddrManager) (p : PeerID)
    (A : List (Option Multiaddr)) (ttl : Duration) (now : Time) :
    (ClearAddrs mgr p).addrsMap.get? p = none
      ∧ (∀ t, Addrs (ClearAddrs mgr p) p t = (ClearAddrs mgr p, []))
      ∧ (0 < ttl →
          (∀ a, a ∈ (Addrs (AddAddrs ro (ClearAddrs mgr p) p A ttl now).1 p now).2 ↔ some a ∈ A)
            ∧ (Addrs (AddAddrs ro (ClearAddrs mgr p) p A ttl now).1 p now).2.Nodup) := by
  have hnone : (ClearAddrs mgr p).addrsMap.get? p = none := by
    rw [ClearAddrs_get?, if_pos rfl]
  refine ⟨hnone, fun t => Addrs_no_entry _ p t hnone, fun ht => ⟨fun a => ?_, ?_⟩⟩
  · rw [Addrs_mem]
    constructor
    · rintro ⟨r, hr, hra, _⟩
      subst hra
      rw [AddAddrs_mem ro _ p A ttl now ht, ClearAddrs_entry_self, addKey_bytes] at hr
      by_cases ha : some r.Addr ∈ A
      · exact ha
      · rw [if_neg ha] at hr
        simp [lastRecord] at hr
    · intro ha
      refine ⟨{ Addr := a, TTL := ttl, Expires := now + ttl }, ?_, rfl, ?_⟩
      · rw [AddAddrs_mem ro _ p A ttl now ht, ClearAddrs_entry_self, addKey_bytes]
        simp [ha, lastRecord, addMerge]
      · exact le_of_lt (lt_add_of_pos_right now ht)
  · rw [Addrs_result]
    have hu := AddAddrs_uniq ro (ClearAddrs mgr p) p A ttl now ht
    have hu2 := hu.filter_uniq (fun r => !r.ExpiredBy now)
    unfold Uniq at hu2
    refine List.Nodup.of_map Multiaddr.Bytes ?_
    rw [List.map_map]
    exact hu2

/-- Witness for C10: peer 1 holds `(A, 100, 100)`; after `ClearAddrs(1)` and
`AddAddrs(1, [B, nil, C, B], 10)` at instant 7, `Addrs(1)` at instant 7 does not return `A`. -/
theorem ClearAddrs_then_add_witness :
    (0 : Duration) < 10
      ∧ (Addrs (AddAddrs RangeOrder.insertion
            (ClearAddrs ⟨some [(1, [⟨⟨[1]⟩, 100, 100⟩])], none⟩ 1) 1
            [some ⟨[2]⟩, none, some ⟨[3]⟩, some ⟨[2]⟩] 10 7).1 1 7).2 = [⟨[2]⟩, ⟨[3]⟩]
      ∧ (⟨[1]⟩ : Multiaddr) ∉ (Addrs (AddAddrs RangeOrder.insertion
            (ClearAddrs ⟨some [(1, [⟨⟨[1]⟩, 100, 100⟩])], none⟩ 1) 1
            [some ⟨[2]⟩, none, some ⟨[3]⟩, some ⟨[2]⟩] 10 7).1 1 7).2 :=
  ⟨by decide, by decide,
   fun h => absurd (((ClearAddrs_then_add RangeOrder.insertion
      ⟨some [(1, [⟨⟨[1]⟩, 100, 100⟩])], none⟩ 1
      [some ⟨[2]⟩, none, some ⟨[3]⟩, some ⟨[2]⟩] 10 7).2.2 (by decide)).1 ⟨[1]⟩ |>.1 h)
      (by decide)⟩

/-- C11: nil entries of the address list are skipped by `AddAddrs` and `SetAddrs`: the
resulting manager and the list of broadcast addresses are those of the call made with the nil
entries removed, and every broadcast address is a non-nil element of the list (a stored record
holds a non-nil address by its type; both operations are total). -/
theorem nil_addrs_are_skipped (ro : RangeOrder) (mgr : AddrManager) (p : PeerID)
    (L : List (Option Multiaddr)) (ttl : Duration) (now : Time) :
    AddAddrs ro mgr p L ttl now = AddAddrs ro mgr p (L.filter (fun a => a.isSome)) ttl now
      ∧ SetAddrs ro mgr p L ttl now = SetAddrs ro mgr p (L.filter (fun a => a.isSome)) ttl now
      ∧ (∀ a ∈ (AddAddrs ro mgr p L ttl now).2, some a ∈ L)
      ∧ (∀ a ∈ (SetAddrs ro mgr p L ttl now).2, some a ∈ L) := by
  refine ⟨?_, ?_, ?_, ?_⟩
  · unfold AddAddrs
    simp only [← addLoop_filter]
  · unfold SetAddrs
    simp only [← setLoop_filter]
  · intro a ha
    by_cases ht : 0 < ttl
    · exact ((AddAddrs_bcast_mem ro mgr p L ttl now ht a).1 ha).1
    · unfold AddAddrs at ha
      rw [if_pos (not_lt.1 ht)] at ha
      cases ha
  · intro a ha
    rw [SetAddrs_bcast_eq] at ha
    by_cases ht : ttl > 0
    · rw [if_pos ht] at ha
      simpa using ha
    · rw [if_neg ht] at ha
      cases ha

/-- Witness for C11: `AddAddrs(1, [nil, A, nil, B], 10)` at instant 0 on the zero-value
manager broadcasts only elements of the list. -/
theorem nil_addrs_are_skipped_witness :
    (⟨[1]⟩ : Multiaddr)
        ∈ (AddAddrs RangeOrder.insertion AddrManager.zero 1
            [none, some ⟨[1]⟩, none, some ⟨[2]⟩] 10 0).2
      ∧ some (⟨[1]⟩ : Multiaddr) ∈ [none, some ⟨[1]⟩, none, some (⟨[2]⟩ : Multiaddr)] :=
  ⟨by decide,
   (nil_addrs_are_skipped RangeOrder.insertion AddrManager.zero 1
      [none, some ⟨[1]⟩, none, some ⟨[2]⟩] 10 0).2.2.1 ⟨[1]⟩ (by decide)⟩

/-- C12, as stated, fails: on the zero-value manager `Peers()` is empty, and after
`SetAddr(1, nil, 1h)`, or after `AddAddr(1, nil, 1h)`, it lists peer 1, for which an empty
entry has been stored. -/
theorem nil_addr_lists_peer_counterexample :
    Peers AddrManager.zero = []
      ∧ Peers (SetAddr RangeOrder.insertion AddrManager.zero 1 none 3600000000000 0).1 = [1]
      ∧ Peers (AddAddr RangeOrder.insertion AddrManager.zero 1 none 3600000000000 0).1 = [1]
      ∧ (SetAddr RangeOrder.insertion AddrManager.zero 1 none 3600000000000 0).1
          ≠ AddrManager.zero := by
  decide

/-- C12, amended: `SetAddr(p, nil, ttl)` and `AddAddr(p, nil, ttl)` broadcast nothing and leave
the set of records of every peer, hence `Addrs(q)` for every peer `q` at every instant,
unchanged; but they store an entry for `p` (empty if `p` had none), so afterwards `Peers()`
lists `p` together with the peers listed before (for `AddAddr` when `ttl > 0`; with `ttl ≤ 0`
`AddAddr` changes nothing at all). -/
theorem nil_addr_keeps_records (ro : RangeOrder) (mgr : AddrManager) (p : PeerID)
    (ttl : Duration) (now : Time) (hu : Uniq (mgr.entry p)) :
    (SetAddr ro mgr p none ttl now).2 = []
      ∧ (AddAddr ro mgr p none ttl now).2 = []
      ∧ (∀ q r, r ∈ (SetAddr ro mgr p none ttl now).1.entry q ↔ r ∈ mgr.entry q)
      ∧ (∀ q r, r ∈ (AddAddr ro mgr p none ttl now).1.entry q ↔ r ∈ mgr.entry q)
      ∧ (∀ q t a, a ∈ (Addrs (SetAddr ro mgr p none ttl now).1 q t).2 ↔ a ∈ (Addrs mgr q t).2)
      ∧ (∀ q t a, a ∈ (Addrs (AddAddr ro mgr p none ttl now).1 q t).2 ↔ a ∈ (Addrs mgr q t).2)
      ∧ (∀ q, q ∈ Peers (SetAddr ro mgr p none ttl now).1 ↔ q = p ∨ q ∈ Peers mgr)
      ∧ (0 < ttl → ∀ q, q ∈ Peers (AddAddr ro mgr p none ttl now).1 ↔ q = p ∨ q ∈ Peers mgr)
      ∧ (ttl ≤ 0 → AddAddr ro mgr p none ttl now = (mgr, [])) := by
  unfold SetAddr AddAddr
  refine ⟨?_, ?_, SetAddrs_nil_entry ro mgr p ttl now hu, AddAddrs_nil_entry ro mgr p ttl now hu,
    fun q t a => Addrs_mem_congr (SetAddrs_nil_entry ro mgr p ttl now hu q) t a,
    fun q t a => Addrs_mem_congr (AddAddrs_nil_entry ro mgr p ttl now hu q) t a,
    SetAddrs_peers ro mgr p [none] ttl now,
    fun ht => AddAddrs_peers ro mgr p [none] ttl now ht, ?_⟩
  · rw [SetAddrs_bcast_eq]
    by_cases ht : ttl > 0 <;> simp [ht]
  · by_cases ht : 0 < ttl
    · rw [AddAddrs_bcast_eq ro mgr p [none] ttl now ht]
      rfl
    · unfold AddAddrs
      rw [if_pos (not_lt.1 ht)]
  · intro ht
    unfold AddAddrs
    rw [if_pos ht]

/-- Witness for C12 (amended): peer 1 holds `(A, 10, 10)`; after `SetAddr(2, nil, 1h)` the
records of peer 1 are the same and `Peers()` lists peer 2 as well. -/
theorem nil_addr_keeps_records_witness :
    Uniq ((⟨some [(1, [⟨⟨[1]⟩, 10, 10⟩])], none⟩ : AddrManager).entry 2)
      ∧ (2 : PeerID) ∈ Peers (SetAddr RangeOrder.insertion
          ⟨some [(1, [⟨⟨[1]⟩, 10, 10⟩])], none⟩ 2 none 3600000000000 0).1 :=
  ⟨by decide,
   ((nil_addr_keeps_records RangeOrder.insertion ⟨some [(1, [⟨⟨[1]⟩, 10, 10⟩])], none⟩ 2
      3600000000000 0 (by decide)).2.2.2.2.2.2.1 2).2 (Or.inl rfl)⟩

/-- C13, as stated, fails: peer 1 holds the single record `(A, 1, 1)`; at instant 10 it has
expired and `Addrs(1)` returns nothing, yet the subscription opened by `AddrStream(1)` is
primed with `A` (a one-element list is its own sorted list under any ordering). -/
theorem AddrStream_snapshot_counterexample :
    (⟨⟨[1]⟩, 1, 1⟩ : expiringAddr).ExpiredBy 10 = true
      ∧ (Addrs ⟨some [(1, [⟨⟨[1]⟩, 1, 1⟩])], none⟩ 1 10).2 = []
      ∧ (AddrStream AddrListSort.byBytes ⟨some [(1, [⟨⟨[1]⟩, 1, 1⟩])], none⟩ 1 7).2
          = { buffer := [], sent := [([1], true)], next := some ⟨[1]⟩, outch := true,
              out := [] } := by
  decide

/-- C13, amended: the snapshot with which `AddrManager.AddrStream(p)` primes the new
subscription is the sorted list of the addresses of all the records stored for `p` at that
moment, expired or not (the method does not read the clock); nothing has been sent yet. -/
theorem AddrStream_snapshot_all_records (srt : AddrListSort) (mgr : AddrManager) (p : PeerID)
    (sub : Nat) :
    (AddrStream srt mgr p sub).2.pending = srt.run ((mgr.entry p).map (fun r => r.Addr))
      ∧ (AddrStream srt mgr p sub).2.out = []
      ∧ ((AddrStream srt mgr p sub).2.pending).Perm ((mgr.entry p).map (fun r => r.Addr))
      ∧ ∀ a, a ∈ (AddrStream srt mgr p sub).2.pending ↔ ∃ r ∈ mgr.entry p, r.Addr = a := by
  have h1 : (AddrStream srt mgr p sub).2.pending
      = srt.run ((mgr.entry p).map (fun r => r.Addr)) := by
    rw [AddrStream_state, subStart_pending]
  refine ⟨h1, ?_, ?_, fun a => ?_⟩
  · rw [AddrStream_state, subStart_out]
  · rw [h1]
    exact srt.perm _
  · rw [h1, (srt.perm _).mem_iff, List.mem_map]

/-- C14: started on a snapshot, after any sequence of publications and consumer receives, the
values sent to the consumer followed by the addresses still held for delivery are the
snapshot followed by the publications that are neither in the snapshot nor published earlier,
in publication order; so what was delivered is a prefix of that list, without repetition when
the snapshot has none, and publishing again an address already delivered or held leaves the
state unchanged.  A receive is possible exactly when an address is held for delivery. -/
theorem stream_delivers_snapshot_then_fresh (snapshot : List Multiaddr) (events : List SubEvent)
    (s' : addrSubState) (h : subRun (subStart snapshot) events = some s') :
    s'.out ++ s'.pending.map some
        = (snapshot ++ freshPubs snapshot (pubsOf events)).map some
      ∧ s'.out <+: (snapshot ++ freshPubs snapshot (pubsOf events)).map some
      ∧ (snapshot.Nodup → s'.out.Nodup)
      ∧ (∀ a, (some a ∈ s'.out ∨ a ∈ s'.pending) → subStep s' (SubEvent.pub a) = some s')
      ∧ (∀ a, a ∈ freshPubs snapshot (pubsOf events) ↔ a ∈ pubsOf events ∧ a ∉ snapshot)
      ∧ (freshPubs snapshot (pubsOf events)).Nodup
      ∧ ((subStep s' SubEvent.send).isSome = true ↔ s'.pending ≠ []) := by
  obtain ⟨⟨seen', hwf', hseen⟩, heq⟩ := subRun_spec events _ s' snapshot (subStart_wf snapshot) h
  rw [subStart_out, subStart_pending, List.nil_append] at heq
  have hpre : s'.out <+: (snapshot ++ freshPubs snapshot (pubsOf events)).map some :=
    ⟨_, heq⟩
  refine ⟨heq, hpre, fun hnd => ?_, fun a ha => ?_, fun a => freshPubs_mem _ _ a,
    freshPubs_nodup _ _, ?_⟩
  · have hall : ((snapshot ++ freshPubs snapshot (pubsOf events)).map some).Nodup :=
      (snapshot_fresh_nodup hnd _).map (Option.some_injective _)
    exact hpre.sublist.nodup hall
  · have hmem : some a ∈ (snapshot ++ freshPubs snapshot (pubsOf events)).map some := by
      rw [← heq, List.mem_append]
      rcases ha with ha | ha
      · exact Or.inl ha
      · exact Or.inr (List.mem_map_of_mem _ ha)
    obtain ⟨b, hb, hba⟩ := List.mem_map.1 hmem
    cases hba
    have hs : a ∈ seen' := by
      rw [hseen]
      rcases List.mem_append.1 hb with hb | hb
      · exact Or.inl hb
      · exact Or.inr ((freshPubs_mem _ _ _).1 hb).1
    simp only [subStep]
    rw [if_pos ((hwf'.2.2 a).2 hs)]
  · obtain ⟨h1, h2, _⟩ := hwf'
    simp only [subStep]
    cases hn : s'.next with
    | none =>
      rw [hn] at h1
      simp [h1, addrSubState.pending, hn, h2 hn]
    | some a =>
      rw [hn] at h1
      cases hb : s'.buffer <;> simp [h1, addrSubState.pending, hn, hb]

/-- Witness for C14: snapshot `[A, B]`; `C` is published, `A` is received, `A` is published
again, `B` and `C` are received, `C` is published again and `D` is published. -/
theorem stream_delivers_snapshot_then_fresh_witness :
    subRun (subStart [⟨[1]⟩, ⟨[2]⟩])
        [SubEvent.pub ⟨[3]⟩, SubEvent.send, SubEvent.pub ⟨[1]⟩, SubEvent.send, SubEvent.send,
          SubEvent.pub ⟨[3]⟩, SubEvent.pub ⟨[4]⟩]
        = some { buffer := [], sent := [([1], true), ([2], true), ([3], true), ([4], true)],
                 next := some ⟨[4]⟩, outch := true,
                 out := [some ⟨[1]⟩, some ⟨[2]⟩, some ⟨[3]⟩] }
      ∧ ([some ⟨[1]⟩, some ⟨[2]⟩, some ⟨[3]⟩] : List (Option Multiaddr)).Nodup :=
  ⟨by decide,
   (stream_delivers_snapshot_then_fresh [⟨[1]⟩, ⟨[2]⟩]
      [SubEvent.pub ⟨[3]⟩, SubEvent.send, SubEvent.pub ⟨[1]⟩, SubEvent.send, SubEvent.send,
        SubEvent.pub ⟨[3]⟩, SubEvent.pub ⟨[4]⟩]
      { buffer := [], sent := [([1], true), ([2], true), ([3], true), ([4], true)],
        next := some ⟨[4]⟩, outch := true, out := [some ⟨[1]⟩, some ⟨[2]⟩, some ⟨[3]⟩] }
      (by decide)).2.2.1 (by decide)⟩

/-- C15: `PermanentAddrTTL` is the largest 64-bit duration and `ConnectedAddrTTL` is that
value minus one, so they differ; hence `UpdateAddrs(p, ConnectedAddrTTL, newTTL)` rewrites,
position by position, every record of `p` stored with `ConnectedAddrTTL` and leaves every
record stored with `PermanentAddrTTL` unchanged, and symmetrically for
`UpdateAddrs(p, PermanentAddrTTL, newTTL)`. -/
theorem sentinel_ttls_distinct (mgr : AddrManager) (p : PeerID) (newTTL : Duration)
    (now : Time) :
    PermanentAddrTTL = 2 ^ 63 - 1
      ∧ ConnectedAddrTTL = PermanentAddrTTL - 1
      ∧ ConnectedAddrTTL ≠ PermanentAddrTTL
      ∧ List.Forall₂
          (fun r r' : expiringAddr =>
            (r.TTL = ConnectedAddrTTL
                → r' = { Addr := r.Addr, TTL := newTTL, Expires := now + newTTL })
              ∧ (r.TTL = PermanentAddrTTL → r' = r))
          (mgr.entry p) ((UpdateAddrs mgr p ConnectedAddrTTL newTTL now).entry p)
      ∧ List.Forall₂
          (fun r r' : expiringAddr =>
            (r.TTL = PermanentAddrTTL
                → r' = { Addr := r.Addr, TTL := newTTL, Expires := now + newTTL })
              ∧ (r.TTL = ConnectedAddrTTL → r' = r))
          (mgr.entry p) ((UpdateAddrs mgr p PermanentAddrTTL newTTL now).entry p) := by
  have hne : ConnectedAddrTTL ≠ PermanentAddrTTL := by decide
  refine ⟨by decide, by decide, hne, ?_, ?_⟩
  · rw [UpdateAddrs_entry, List.forall₂_map_right_iff, List.forall₂_same]
    intro r _
    refine ⟨fun h => ?_, fun h => ?_⟩
    · simp [updateRecord, h]
    · simp [updateRecord, h, hne]
  · rw [UpdateAddrs_entry, List.forall₂_map_right_iff, List.forall₂_same]
    intro r _
    refine ⟨fun h => ?_, fun h => ?_⟩
    · simp [updateRecord, h]
    · simp [updateRecord, h, Ne.symm hne]

/-- Witness for C15: peer 1 holds `A` with `ConnectedAddrTTL` and `B` with `PermanentAddrTTL`;
`UpdateAddrs(1, ConnectedAddrTTL, 10)` at instant 5 rewrites the record of `A` only. -/
theorem sentinel_ttls_distinct_witness :
    (UpdateAddrs ⟨some [(1, [⟨⟨[1]⟩, ConnectedAddrTTL, ConnectedAddrTTL⟩,
          ⟨⟨[2]⟩, PermanentAddrTTL, PermanentAddrTTL⟩])], none⟩ 1 ConnectedAddrTTL 10 5).entry 1
        = [⟨⟨[1]⟩, 10, 15⟩, ⟨⟨[2]⟩, PermanentAddrTTL, PermanentAddrTTL⟩]
      ∧ ConnectedAddrTTL ≠ PermanentAddrTTL :=
  ⟨by decide,
   (sentinel_ttls_distinct ⟨some [(1, [⟨⟨[1]⟩, ConnectedAddrTTL, ConnectedAddrTTL⟩,
      ⟨⟨[2]⟩, PermanentAddrTTL, PermanentAddrTTL⟩])], none⟩ 1 10 5).2.2.1⟩

/-- C16: a call of `AddAddrs`, `SetAddrs`, `UpdateAddrs`, `ClearAddrs` or `Addrs` on a peer `p`
leaves the entry of every other peer `q` as it was, so `Addrs(q)` returns the same at every
instant. -/
theorem other_peer_untouched (ro : RangeOrder) (mgr : AddrManager) (p q : PeerID)
    (addrs : List (Option Multiaddr)) (ttl oldTTL newTTL : Duration) (now : Time)
    (hpq : p ≠ q) :
    ∀ m' ∈ [(AddAddrs ro mgr p addrs ttl now).1, (SetAddrs ro mgr p addrs ttl now).1,
        UpdateAddrs mgr p oldTTL newTTL now, ClearAddrs mgr p, (Addrs mgr p now).1],
      m'.addrsMap.get? q = mgr.addrsMap.get? q
        ∧ m'.entry q = mgr.entry q
        ∧ ∀ t, (Addrs m' q t).2 = (Addrs mgr q t).2 := by
  have key : ∀ m' : AddrManager, m'.addrsMap.get? q = mgr.addrsMap.get? q →
      m'.addrsMap.get? q = mgr.addrsMap.get? q
        ∧ m'.entry q = mgr.entry q
        ∧ ∀ t, (Addrs m' q t).2 = (Addrs mgr q t).2 :=
    fun m' h => ⟨h, entry_congr h, fun t => Addrs_result_congr h t⟩
  intro m' hm'
  simp only [List.mem_cons, List.mem_singleton, List.not_mem_nil, or_false] at hm'
  rcases hm' with h | h | h | h | h
  · rw [h]
    exact key _ (AddAddrs_get?_other ro mgr p q addrs ttl now hpq)
  · rw [h]
    exact key _ (SetAddrs_get?_other ro mgr p q addrs ttl now hpq)
  · rw [h]
    exact key _ (UpdateAddrs_get?_other mgr p q oldTTL newTTL now hpq)
  · rw [h]
    exact key _ (by rw [ClearAddrs_get?, if_neg hpq])
  · rw [h]
    exact key _ (Addrs_get?_other mgr p q now hpq)

/-- Witness for C16: peers 1 and 2 hold one record each; `SetAddrs(1, [A], -1)` at instant 3
removes the record of peer 1 and leaves `Addrs(2)` at instant 4 as it was. -/
theorem other_peer_untouched_witness :
    (1 : PeerID) ≠ 2
      ∧ (Addrs (SetAddrs RangeOrder.insertion
            ⟨some [(1, [⟨⟨[1]⟩, 10, 10⟩]), (2, [⟨⟨[2]⟩, 10, 10⟩])], none⟩ 1 [some ⟨[1]⟩]
            (-1) 3).1 2 4).2 = [⟨[2]⟩] :=
  ⟨by decide,
   ((other_peer_untouched RangeOrder.insertion
      ⟨some [(1, [⟨⟨[1]⟩, 10, 10⟩]), (2, [⟨⟨[2]⟩, 10, 10⟩])], none⟩ 1 2 [some ⟨[1]⟩]
      (-1) 0 0 3 (by decide) _ (List.mem_cons_of_mem _ (List.mem_cons_self _ _))).2.2 4).trans
    (by decide)⟩

/-- C18: with `ttl > 0`, `AddAddrs` at instant `now` broadcasts an address `a` exactly when
`a` is a non-nil element of `addrs` that before the call had no record under `p` or had one
with `Expires < now + ttl`; no address is broadcast twice, so each such address is broadcast
exactly once, however often it occurs in the list; with `ttl ≤ 0` nothing is broadcast. -/
theorem AddAddrs_broadcasts_new_once (ro : RangeOrder) (mgr : AddrManager) (p : PeerID)
    (addrs : List (Option Multiaddr)) (ttl : Duration) (now : Time)
    (hu : Uniq (mgr.entry p)) :
    (0 < ttl → ∀ a, a ∈ (AddAddrs ro mgr p addrs ttl now).2
        ↔ some a ∈ addrs ∧ isNewFor (mgr.entry p) (now + ttl) a)
      ∧ (AddAddrs ro mgr p addrs ttl now).2.Nodup
      ∧ (0 < ttl → ∀ a, some a ∈ addrs → isNewFor (mgr.entry p) (now + ttl) a →
          (AddAddrs ro mgr p addrs ttl now).2.count a = 1)
      ∧ (ttl ≤ 0 → (AddAddrs ro mgr p addrs ttl now).2 = []) := by
  have hiff : 0 < ttl → ∀ a, a ∈ (AddAddrs ro mgr p addrs ttl now).2
      ↔ some a ∈ addrs ∧ isNewFor (mgr.entry p) (now + ttl) a := by
    intro ht a
    rw [AddAddrs_bcast_mem ro mgr p addrs ttl now ht, addFires_iff_isNewFor hu]
  refine ⟨hiff, AddAddrs_bcast_nodup ro mgr p addrs ttl now, fun ht a ha hnew => ?_, fun ht => ?_⟩
  · exact List.count_eq_one_of_mem (AddAddrs_bcast_nodup ro mgr p addrs ttl now)
      ((hiff ht a).2 ⟨ha, hnew⟩)
  · unfold AddAddrs
    rw [if_pos ht]

/-- Witness for C18: peer 1 holds `(A, 100, 100)` and `(B, 5, 5)`;
`AddAddrs(1, [A, B, C, nil, B, C], 10)` at instant 0 broadcasts `B` and `C`, once each. -/
theorem AddAddrs_broadcasts_new_once_witness :
    Uniq ((⟨some [(1, [⟨⟨[1]⟩, 100, 100⟩, ⟨⟨[2]⟩, 5, 5⟩])], none⟩ : AddrManager).entry 1)
      ∧ (AddAddrs RangeOrder.insertion ⟨some [(1, [⟨⟨[1]⟩, 100, 100⟩, ⟨⟨[2]⟩, 5, 5⟩])], none⟩ 1
          [some ⟨[1]⟩, some ⟨[2]⟩, some ⟨[3]⟩, none, some ⟨[2]⟩, some ⟨[3]⟩] 10 0).2
          = [⟨[2]⟩, ⟨[3]⟩]
      ∧ (AddAddrs RangeOrder.insertion ⟨some [(1, [⟨⟨[1]⟩, 100, 100⟩, ⟨⟨[2]⟩, 5, 5⟩])], none⟩ 1
          [some ⟨[1]⟩, some ⟨[2]⟩, some ⟨[3]⟩, none, some ⟨[2]⟩, some ⟨[3]⟩] 10 0).2.Nodup :=
  ⟨by decide, by decide,
   (AddAddrs_broadcasts_new_once RangeOrder.insertion
      ⟨some [(1, [⟨⟨[1]⟩, 100, 100⟩, ⟨⟨[2]⟩, 5, 5⟩])], none⟩ 1
      [some ⟨[1]⟩, some ⟨[2]⟩, some ⟨[3]⟩, none, some ⟨[2]⟩, some ⟨[3]⟩] 10 0
      (by decide)).2.1⟩

/-- C19, as stated, fails: peer 1 holds `(A, 100, 100)`; `SetAddrs(1, [A, A], 10)` at
instant 0 broadcasts `A` twice, although `A` was present with an expiry (100) later than
`now + ttl` (10). -/
theorem SetAddrs_broadcast_counterexample :
    (0 : Duration) < 10 ∧ (0 : Time) + 10 ≤ 100
      ∧ (⟨some [(1, [⟨⟨[1]⟩, 100, 100⟩])], none⟩ : AddrManager).entry 1 = [⟨⟨[1]⟩, 100, 100⟩]
      ∧ (SetAddrs RangeOrder.insertion ⟨some [(1, [⟨⟨[1]⟩, 100, 100⟩])], none⟩ 1
          [some ⟨[1]⟩, some ⟨[1]⟩] 10 0).2 = [⟨[1]⟩, ⟨[1]⟩] := by
  decide

/-- C19, amended: with `ttl > 0`, `SetAddrs` broadcasts every non-nil element of `addrs`, in
list order and once per occurrence, whether or not the address was already stored for `p`;
with `ttl ≤ 0` nothing is broadcast. -/
theorem SetAddrs_broadcasts_every_element (ro : RangeOrder) (mgr : AddrManager) (p : PeerID)
    (addrs : List (Option Multiaddr)) (ttl : Duration) (now : Time) :
    (0 < ttl → (SetAddrs ro mgr p addrs ttl now).2 = addrs.filterMap id)
      ∧ (0 < ttl → ∀ a, (SetAddrs ro mgr p addrs ttl now).2.count a = addrs.count (some a))
      ∧ (ttl ≤ 0 → (SetAddrs ro mgr p addrs ttl now).2 = []) := by
  refine ⟨fun ht => ?_, fun ht a => ?_, fun ht => ?_⟩
  · rw [SetAddrs_bcast_eq, if_pos ht]
  · rw [SetAddrs_bcast_eq, if_pos ht, List.count_filterMap]
    rfl
  · rw [SetAddrs_bcast_eq, if_neg (not_lt.2 ht)]

/-- Witness for C19 (amended): `SetAddrs(1, [A, nil, B, A], 10)` on the zero-value manager
broadcasts `A`, `B`, `A`. -/
theorem SetAddrs_broadcasts_every_element_witness :
    (0 : Duration) < 10
      ∧ (SetAddrs RangeOrder.insertion AddrManager.zero 1
          [some ⟨[1]⟩, none, some ⟨[2]⟩, some ⟨[1]⟩] 10 0).2 = [⟨[1]⟩, ⟨[2]⟩, ⟨[1]⟩] :=
  ⟨by decide,
   ((SetAddrs_broadcasts_every_element RangeOrder.insertion AddrManager.zero 1
      [some ⟨[1]⟩, none, some ⟨[2]⟩, some ⟨[1]⟩] 10 0).1 (by decide)).trans (by decide)⟩

/-- C20: in a subscriber index where no key is bound to an empty list and no list holds a
subscription twice, `removeSub(p, s)` removes `s` from the list of `p` when it is there and
keeps the other subscriptions of `p` (up to order); it deletes the key `p` when `s` was its
only subscription and keeps a non-empty list otherwise; it leaves the lists of the other
peers as they were; it changes nothing when `s` is not registered under `p`.  Both `removeSub`
and the registration done by `AddrStream` preserve the two properties of the index. -/
theorem removeSub_maintains_index (srt : AddrListSort) (mgr : AddrSubManager) (p : PeerID)
    (s sub : Nat) (initial : List Multiaddr) (hne : NoEmptySubs mgr) (hnd : NodupSubs mgr) :
    (s ∈ mgr.subsOf p →
        s ∉ (mgr.removeSub p s).subsOf p
          ∧ ((mgr.removeSub p s).subsOf p).Perm ((mgr.subsOf p).erase s))
      ∧ (s ∈ mgr.subsOf p → (mgr.subsOf p).length = 1 →
          (mgr.removeSub p s).subs.get? p = none)
      ∧ (s ∈ mgr.subsOf p → (mgr.subsOf p).length ≠ 1 →
          (mgr.removeSub p s).subs.get? p = some (swapRemove (mgr.subsOf p) s)
            ∧ swapRemove (mgr.subsOf p) s ≠ [])
      ∧ (∀ q, q ≠ p → (mgr.removeSub p s).subs.get? q = mgr.subs.get? q)
      ∧ (s ∉ mgr.subsOf p → mgr.removeSub p s = mgr)
      ∧ NoEmptySubs (mgr.removeSub p s) ∧ NodupSubs (mgr.removeSub p s)
      ∧ NoEmptySubs (mgr.AddrStream srt p initial sub).1
      ∧ (sub ∉ mgr.subsOf p → NodupSubs (mgr.AddrStream srt p initial sub).1) := by
  show _ ∧ _ ∧ _ ∧ _ ∧ _ ∧ _ ∧ _ ∧ NoEmptySubs (mgr.register p sub)
    ∧ (sub ∉ mgr.subsOf p → NodupSubs (mgr.register p sub))
  have hndp : (mgr.subsOf p).Nodup := by
    by_cases h : mgr.subsOf p = []
    · rw [h]
      exact List.nodup_nil
    · exact hnd _ (subsOf_mem_subs h)
  have hlen2 : s ∈ mgr.subsOf p → (mgr.subsOf p).length ≠ 1 →
      swapRemove (mgr.subsOf p) s ≠ [] := by
    intro hs hlen hnil
    have h1 := swapRemove_length (mgr.subsOf p) s
    rw [hnil] at h1
    have h2 : 0 < (mgr.subsOf p).length := List.length_pos_of_mem hs
    simp only [List.length_nil] at h1
    omega
  refine ⟨fun hs => ?_, fun hs hlen => ?_, fun hs hlen => ⟨?_, hlen2 hs hlen⟩, fun q hq => ?_,
    fun hs => removeSub_absent hs, ?_, ?_, ?_, fun hsub => ?_⟩
  · have hperm : ((mgr.removeSub p s).subsOf p).Perm ((mgr.subsOf p).erase s) := by
      by_cases hlen : (mgr.subsOf p).length = 1
      · obtain ⟨x, hx⟩ := List.length_eq_one.1 hlen
        have hxs : x = s := by
          rw [hx] at hs
          exact (List.mem_singleton.1 hs).symm
        rw [hxs] at hx
        rw [removeSub_single hx, subsOf_delete, if_pos rfl, hx]
        simp
      · rw [removeSub_many hs hlen, subsOf_set, if_pos rfl]
        exact swapRemove_perm hs
    refine ⟨fun hmem => ?_, hperm⟩
    exact (List.Nodup.mem_erase_iff hndp).1 (hperm.mem_iff.1 hmem) |>.1 rfl
  · obtain ⟨x, hx⟩ := List.length_eq_one.1 hlen
    have hxs : x = s := by
      rw [hx] at hs
      exact (List.mem_singleton.1 hs).symm
    rw [hxs] at hx
    rw [removeSub_single hx, GoMap.get?_delete, if_pos rfl]
  · rw [removeSub_many hs hlen, GoMap.get?_set, if_pos rfl]
  · by_cases hs : s ∈ mgr.subsOf p
    · by_cases hlen : (mgr.subsOf p).length = 1
      · obtain ⟨x, hx⟩ := List.length_eq_one.1 hlen
        have hxs : x = s := by
          rw [hx] at hs
          exact (List.mem_singleton.1 hs).symm
        rw [hxs] at hx
        rw [removeSub_single hx, GoMap.get?_delete, if_neg (Ne.symm hq)]
      · rw [removeSub_many hs hlen, GoMap.get?_set, if_neg (Ne.symm hq)]
    · rw [removeSub_absent hs]
  · intro kv hkv
    rcases removeSub_mem hkv with h1 | ⟨h1, hs, hlen⟩
    · exact hne kv h1
    · rw [h1]
      exact hlen2 hs hlen
  · intro kv hkv
    rcases removeSub_mem hkv with h1 | ⟨h1, hs, hlen⟩
    · exact hnd kv h1
    · rw [h1]
      exact (swapRemove_perm hs).nodup_iff.2 (hndp.erase s)
  · intro kv hkv
    rcases register_mem hkv with h1 | h1
    · rw [h1]
      simp
    · exact hne kv h1
  · intro kv hkv
    rcases register_mem hkv with h1 | h1
    · rw [h1]
      exact List.nodup_append.2 ⟨hndp, List.nodup_singleton sub, fun x hx hx' =>
        hsub ((List.mem_singleton.1 hx') ▸ hx)⟩
    · exact hnd kv h1

/-- Witness for C20: peer 1 has the subscriptions 5, 6, 7, 8 and peer 2 the subscription 9;
`removeSub(1, 6)` leaves 5, 8, 7 for peer 1, and `removeSub(2, 9)` deletes the key 2. -/
theorem removeSub_maintains_index_witness :
    NoEmptySubs ⟨[(1, [5, 6, 7, 8]), (2, [9])]⟩ ∧ NodupSubs ⟨[(1, [5, 6, 7, 8]), (2, [9])]⟩
      ∧ AddrSubManager.removeSub ⟨[(1, [5, 6, 7, 8]), (2, [9])]⟩ 1 6
          = ⟨[(1, [5, 8, 7]), (2, [9])]⟩
      ∧ (AddrSubManager.removeSub ⟨[(1, [5, 6, 7, 8]), (2, [9])]⟩ 2 9).subs.get? 2 = none :=
  ⟨by unfold NoEmptySubs; decide, by unfold NodupSubs; decide, by decide,
   (removeSub_maintains_index AddrListSort.byBytes ⟨[(1, [5, 6, 7, 8]), (2, [9])]⟩ 2 9 0 []
      (by unfold NoEmptySubs; decide) (by unfold NodupSubs; decide)).2.1
      (by decide) (by decide)⟩

end Peerstore
